import Mathlib

/-!
Verification of the streaming CLI adapter core of the dyad-with-opencode
repository (files src/ipc/utils/opencode_cli_provider.ts, which contains the
OpenCode adapter and the Gemini CLI adapter, and
src/ipc/utils/letta_cli_provider.ts, the Letta adapter).

Strings of the JavaScript source are modelled as lists of characters
(abbreviation Str).  Each adapter layer is translated directly from the
source:

- the line-buffered parser (buffer += chunk; lines = buffer.split newline;
  buffer = lines.pop()) becomes splitCL / feedChunk / feedAll;
- the buffered (doGenerate) entry points become ocGenerate / lettaGenerate;
- the streaming (doStream) entry points become explicit state machines
  (OCSt / LettaSt / GemSt) whose per-line handlers mirror the source branch
  for branch, including the try/catch that swallows exceptions thrown by
  enqueue on an already-terminated ReadableStream controller;
- the ReadableStream controller is modelled by Ctrl: enqueue and close throw
  (return none) unless the stream is open, error is a no-op unless open,
  matching the WHATWG semantics under prompt consumption of the queue.
-/

abbrev Str := List Char

/-- Convert a Lean string literal to the character-list representation. -/
def str (s : String) : Str := s.toList

/-- Whitespace test matching the characters relevant to the wire format
(the JavaScript trim removes all Unicode whitespace; the wire lines only
ever carry these four). -/
def isWs (c : Char) : Bool := c == ' ' || c == '\t' || c == '\n' || c == '\r'

/-- Model of the JavaScript String.trim on both ends. -/
def trim (s : Str) : Str := ((s.dropWhile isWs).reverse.dropWhile isWs).reverse

/-!
## Line-buffered event parser

The source (doStream data handler, identical in all three adapters):

  buffer += data.toString();
  const lines = buffer.split(newline);
  buffer = lines.pop() || "";
  for (const line of lines) ...

splitCL s returns exactly (lines-after-pop, popped-last-piece) of the
JavaScript split of s on the newline character.
-/

/-- Split a string on newline characters, returning the completed lines
(every piece except the last) and the trailing piece (the new residual
buffer).  This is the pair (lines, lines.pop()) of the source. -/
def splitCL : Str → List Str × Str
  | [] => ([], [])
  | c :: rest =>
    let p := splitCL rest
    if c = '\n' then ([] :: p.1, p.2)
    else
      match p.1 with
      | [] => ([], c :: p.2)
      | l :: ls => ((c :: l) :: ls, p.2)

/-- Completed lines contributed by the second operand of an append. -/
def glueL (ra : Str) : List Str × Str → List Str
  | ([], _) => []
  | (h :: t, _) => (ra ++ h) :: t

/-- Residual contributed by the second operand of an append. -/
def glueR (ra : Str) : List Str × Str → Str
  | ([], rb) => ra ++ rb
  | (_ :: _, rb) => rb

theorem splitCL_append (a b : Str) :
    splitCL (a ++ b) =
      ((splitCL a).1 ++ glueL (splitCL a).2 (splitCL b),
        glueR (splitCL a).2 (splitCL b)) := by
  induction a with
  | nil =>
    rcases hb : splitCL b with ⟨lb, rb⟩
    simp only [List.nil_append, hb]
    cases lb <;> simp [splitCL, glueL, glueR]
  | cons c a ih =>
    rcases hb : splitCL b with ⟨lb, rb⟩
    rcases ha : splitCL a with ⟨la, ra⟩
    rw [ha, hb] at ih
    by_cases hc : c = '\n'
    · cases lb <;> cases la <;>
        simp [splitCL, ih, ha, hc, glueL, glueR]
    · cases lb <;> cases la <;>
        simp [splitCL, ih, ha, hc, glueL, glueR, List.append_assoc]

theorem splitCL_no_newline (s : Str) : '\n' ∉ (splitCL s).2 := by
  induction s with
  | nil => simp [splitCL]
  | cons c rest ih =>
    rcases h : splitCL rest with ⟨ls, r⟩
    rw [h] at ih
    by_cases hc : c = '\n'
    · simpa [splitCL, h, hc] using ih
    · cases ls with
      | nil =>
        simp only [splitCL, h, hc, if_false]
        intro hmem
        rcases List.mem_cons.mp hmem with h1 | h1
        · exact hc h1.symm
        · exact ih h1
      | cons l ls2 => simpa [splitCL, h, hc] using ih

theorem splitCL_of_no_newline (s : Str) (h : '\n' ∉ s) : splitCL s = ([], s) := by
  induction s with
  | nil => simp [splitCL]
  | cons c rest ih =>
    have hc : ¬ c = '\n' := fun hh => h (hh ▸ List.mem_cons_self c rest)
    have hr : '\n' ∉ rest := fun hh => h (List.mem_cons_of_mem c hh)
    simp [splitCL, hc, ih hr]

/-- Feed one raw stdout chunk through the residual buffer, as the source
does on each data event: append to the buffer, split on newline, emit all
pieces but the last, keep the last as the new buffer. -/
def feedChunk (buf chunk : Str) : List Str × Str := splitCL (buf ++ chunk)

/-- Feed a whole sequence of raw chunks, collecting every completed line in
order and returning the final residual buffer. -/
def feedAll : Str → List Str → List Str × Str
  | buf, [] => ([], buf)
  | buf, c :: cs =>
    let p := feedChunk buf c
    let q := feedAll p.2 cs
    (p.1 ++ q.1, q.2)

theorem feedAll_eq_splitCL (chunks : List Str) :
    ∀ buf : Str, '\n' ∉ buf →
      feedAll buf chunks = splitCL (buf ++ chunks.flatten) := by
  induction chunks with
  | nil =>
    intro buf h
    simp [feedAll, splitCL_of_no_newline buf h]
  | cons c cs ih =>
    intro buf h
    have hres : '\n' ∉ (splitCL (buf ++ c)).2 := splitCL_no_newline _
    have step := ih (splitCL (buf ++ c)).2 hres
    have hsplit := splitCL_append (buf ++ c) cs.flatten
    have hsplit2 := splitCL_append (splitCL (buf ++ c)).2 cs.flatten
    rw [splitCL_of_no_newline _ hres] at hsplit2
    simp only [feedAll, feedChunk, step, hsplit2]
    have hassoc : buf ++ (c :: cs).flatten = (buf ++ c) ++ cs.flatten := by
      simp [List.flatten_cons]
    rw [hassoc, hsplit]
    simp

/-- The full sequence of lines the streaming parser submits to JSON parsing
over the life of one call: each completed line is trimmed and dropped when
blank (the in-stream handler), and on process close the residual buffer, if
it trims to something non-empty, is submitted as one final line. -/
def streamLines (chunks : List Str) : List Str :=
  let p := feedAll [] chunks
  (p.1.map trim).filter (fun l => l ≠ []) ++
    (if trim p.2 ≠ [] then [trim p.2] else [])

/-- Chunk-boundary invariance of the streaming parser: any partition of the
byte stream yields the same submitted line sequence as one single chunk. -/
theorem streamLines_chunk_invariant (chunks : List Str) :
    streamLines chunks = streamLines [chunks.flatten] := by
  unfold streamLines
  rw [feedAll_eq_splitCL chunks [] (by simp),
      feedAll_eq_splitCL [chunks.flatten] [] (by simp)]
  simp [feedAll, feedChunk]

/-!
## Wire format

A canonical serialization of the OpenCode CLI event records that the
buffered entry point consumes (the doGenerate data handler reads only the
text and step_finish variants; every other line has no effect on its
state beyond session capture).  parseOC models JSON.parse restricted to
these record shapes: it accepts exactly a complete record in canonical
field order and rejects every fragment, as JSON.parse rejects a truncated
object.
-/

inductive OCReason
  | stop
  | toolCalls
  | errorR
deriving DecidableEq

inductive OCStatus
  | pending
  | running
  | completed
  | errorS
deriving DecidableEq

/-- One tool_use part: callID, tool name, status, and the optional state
fields the adapter reads.  The input object is modelled by its
JSON.stringify form (present only when the object is non-empty). -/
structure OCTool where
  callID : Str
  tool : Str
  status : OCStatus
  input? : Option Str
  output? : Option Str
  error? : Option Str
  title? : Option Str
deriving DecidableEq

inductive OCEvent
  | stepStart (sid : Str) (messageID : Str)
  | text (sid : Str) (txt : Str)
  | toolUse (sid : Str) (t : OCTool)
  | stepFinish (sid : Str) (reason : OCReason) (inTok outTok : Nat)
  | errorEv (sid : Str) (name : Str) (message? : Option Str)
deriving DecidableEq

/-- The sessionID field every OpenCode event carries. -/
def OCEvent.sid : OCEvent → Str
  | .stepStart s _ => s
  | .text s _ => s
  | .toolUse s _ => s
  | .stepFinish s _ _ _ => s
  | .errorEv s _ _ => s

/-- Consume an exact pattern from the front of the input. -/
def eat (pat s : Str) : Option Str :=
  if pat.isPrefixOf s then some (s.drop pat.length) else none

/-- Read a JSON string body up to its closing quote (no escapes: the wire
records in scope contain none). -/
def readStr : Str → Option (Str × Str)
  | [] => none
  | c :: rest =>
    if c = '"' then some ([], rest)
    else if c = '\\' then none
    else
      match readStr rest with
      | some (t, r) => some (c :: t, r)
      | none => none

/-- Accumulate decimal digits. -/
def readDigits : Str → Nat → Nat × Str
  | [], acc => (acc, [])
  | c :: rest, acc =>
    if c.isDigit then readDigits rest (acc * 10 + (c.toNat - 48))
    else (acc, c :: rest)

/-- Read a decimal natural number (at least one digit). -/
def readNat : Str → Option (Nat × Str)
  | [] => none
  | c :: rest =>
    if c.isDigit then some (readDigits (c :: rest) 0) else none

/-- Parse one line as an OpenCode text record. -/
def parseOCText (l : Str) : Option OCEvent :=
  match eat (str "\x7b\"type\":\"text\",\"sessionID\":\"") l with
  | none => none
  | some r1 =>
    match readStr r1 with
    | none => none
    | some (sid, r2) =>
      match eat (str ",\"part\":\x7b\"text\":\"") r2 with
      | none => none
      | some r3 =>
        match readStr r3 with
        | none => none
        | some (txt, r4) =>
          if r4 = str "\x7d\x7d" then some (.text sid txt) else none

/-- Parse one line as an OpenCode step_finish record. -/
def parseOCStepFinish (l : Str) : Option OCEvent :=
  match eat (str "\x7b\"type\":\"step_finish\",\"sessionID\":\"") l with
  | none => none
  | some r1 =>
    match readStr r1 with
    | none => none
    | some (sid, r2) =>
      match eat (str ",\"part\":\x7b\"reason\":\"") r2 with
      | none => none
      | some r3 =>
        let reason? : Option (OCReason × Str) :=
          match eat (str "stop\"") r3 with
          | some r => some (.stop, r)
          | none =>
            match eat (str "tool-calls\"") r3 with
            | some r => some (.toolCalls, r)
            | none =>
              match eat (str "error\"") r3 with
              | some r => some (.errorR, r)
              | none => none
        match reason? with
        | none => none
        | some (reason, r4) =>
          match eat (str ",\"tokens\":\x7b\"input\":") r4 with
          | none => none
          | some r5 =>
            match readNat r5 with
            | none => none
            | some (i, r6) =>
              match eat (str ",\"output\":") r6 with
              | none => none
              | some r7 =>
                match readNat r7 with
                | none => none
                | some (o, r8) =>
                  if r8 = str "\x7d\x7d\x7d" then
                    some (.stepFinish sid reason i o)
                  else none

/-- Parse one stdout line as an OpenCode event record (the shapes the
buffered entry point reacts to); every other line parses to none. -/
def parseOC (l : Str) : Option OCEvent :=
  match parseOCText l with
  | some e => some e
  | none => parseOCStepFinish l

/-!
## Session map

sessionMap is a string-keyed Map; modelled as an association list whose
store operation replaces in place. -/

abbrev SMap := List (Str × Str)

def mget (k : Str) : SMap → Option Str
  | [] => none
  | (k2, v) :: rest => if k2 = k then some v else mget k rest

def mstore (k v : Str) : SMap → SMap
  | [] => [(k, v)]
  | (k2, v2) :: rest =>
    if k2 = k then (k, v) :: rest else (k2, v2) :: mstore k v rest

/-- Truthiness of an optional string, as JavaScript tests it. -/
def truthyOpt : Option Str → Bool
  | some s => !s.isEmpty
  | none => false

/-- parseAndStoreSessionId of the OpenCode provider: store the identifier
for the current session key only when the key holds no identifier yet. -/
def parseAndStoreSessionId (key? : Option Str) (m : SMap) (sid : Str) : SMap :=
  if truthyOpt key? && !sid.isEmpty then
    let k := key?.getD []
    match mget k m with
    | some v => if v.isEmpty then mstore k sid m else m
    | none => mstore k sid m
  else m

/-!
## Buffered (doGenerate) entry points
-/

structure OCGenSt where
  output : Str
  totalInput : Nat
  totalOutput : Nat
  smap : SMap
deriving DecidableEq

/-- The full JavaScript split on newline: every piece, including the last. -/
def splitAllNl (s : Str) : List Str := (splitCL s).1 ++ [(splitCL s).2]

/-- One line of the OpenCode doGenerate data handler: skip blank lines,
parse, capture the session id, then record text output or accumulate
step_finish token counts. -/
def ocGenLine (key? : Option Str) (st : OCGenSt) (line : Str) : OCGenSt :=
  if (trim line).isEmpty then st
  else
    match parseOC line with
    | none => st
    | some ev =>
      let st1 := { st with smap := parseAndStoreSessionId key? st.smap ev.sid }
      match ev with
      | .text _ txt => { st1 with output := txt }
      | .stepFinish _ _ i o =>
        { st1 with totalInput := st1.totalInput + i,
                   totalOutput := st1.totalOutput + o }
      | _ => st1

/-- One data event of the OpenCode doGenerate handler: the chunk is split
on newline with no residual buffer, and every piece is processed. -/
def ocGenChunk (key? : Option Str) (st : OCGenSt) (chunk : Str) : OCGenSt :=
  (splitAllNl chunk).foldl (ocGenLine key?) st

def ocGenAccum (key? : Option Str) (smap : SMap) (chunks : List Str) : OCGenSt :=
  chunks.foldl (ocGenChunk key?) ⟨[], 0, 0, smap⟩

inductive GenErr
  | exitCode (code : Int)
deriving DecidableEq

structure GenResult where
  text : Str
  promptTokens : Nat
  completionTokens : Nat
deriving DecidableEq

/-- The OpenCode doGenerate close handler: a non-zero exit code rejects
with an exit-code error; a zero exit resolves with the accumulated output
and token totals. -/
def ocGenerate (key? : Option Str) (smap : SMap) (chunks : List Str)
    (code : Int) : Except GenErr GenResult :=
  let st := ocGenAccum key? smap chunks
  if code ≠ 0 then .error (.exitCode code)
  else .ok ⟨st.output, st.totalInput, st.totalOutput⟩

/-- The whole-chunk JSON response the Letta doGenerate handler tries to
parse on each data event. -/
structure LettaResp where
  text? : Option Str
  agentId? : Option Str
  usage? : Option (Nat × Nat)
deriving DecidableEq

/-- Canonical serialization of a full Letta buffered response. -/
def parseLettaResp (s : Str) : Option LettaResp :=
  match eat (str "\x7b\"text\":\"") s with
  | none => none
  | some r1 =>
    match readStr r1 with
    | none => none
    | some (t, r2) =>
      match eat (str ",\"agentId\":\"") r2 with
      | none => none
      | some r3 =>
        match readStr r3 with
        | none => none
        | some (a, r4) =>
          match eat (str ",\"usage\":\x7b\"input_tokens\":") r4 with
          | none => none
          | some r5 =>
            match readNat r5 with
            | none => none
            | some (i, r6) =>
              match eat (str ",\"output_tokens\":") r6 with
              | none => none
              | some r7 =>
                match readNat r7 with
                | none => none
                | some (o, r8) =>
                  if r8 = str "\x7d\x7d" then
                    some ⟨some t, some a, some (i, o)⟩
                  else none

structure LettaGenSt where
  output : Str
  totalInput : Nat
  totalOutput : Nat
  smap : SMap
deriving DecidableEq

/-- One data event of the Letta doGenerate handler: try to parse the whole
chunk as a response object; on success take its text, store its agent id
unconditionally, and overwrite the usage totals; on failure append the raw
chunk to the output. -/
def lettaGenChunk (key? : Option Str) (st : LettaGenSt) (chunk : Str) :
    LettaGenSt :=
  match parseLettaResp chunk with
  | none => { st with output := st.output ++ chunk }
  | some resp =>
    let st1 :=
      match resp.text? with
      | some t => if t.isEmpty then st else { st with output := t }
      | none => st
    let st2 :=
      match resp.agentId?, key? with
      | some a, some k =>
        if !a.isEmpty && !k.isEmpty then { st1 with smap := mstore k a st1.smap }
        else st1
      | _, _ => st1
    match resp.usage? with
    | some (i, o) => { st2 with totalInput := i, totalOutput := o }
    | none => st2

def lettaGenAccum (key? : Option Str) (smap : SMap) (chunks : List Str) :
    LettaGenSt :=
  chunks.foldl (lettaGenChunk key?) ⟨[], 0, 0, smap⟩

/-- The Letta doGenerate close handler: a non-zero exit code rejects with
an exit-code error; a zero exit resolves with the accumulated output. -/
def lettaGenerate (key? : Option Str) (smap : SMap) (chunks : List Str)
    (code : Int) : Except GenErr GenResult :=
  let st := lettaGenAccum key? smap chunks
  if code ≠ 0 then .error (.exitCode code)
  else .ok ⟨st.output, st.totalInput, st.totalOutput⟩

deriving instance DecidableEq for Except

/-!
## Claims C1 and C3
-/

/-- C1 (amended): chunk-boundary invariance of line buffering holds for the
streaming entry point: for every partition of the stdout byte stream into
chunks, the residual-buffer parser (with the close-time flush of the
buffer) submits exactly the same line sequence, hence the same sequence of
parsed JSON records under any record parser, as one chunk carrying the
whole output; in particular a record split across a chunk boundary is
parsed exactly once.  The buffered doGenerate entry point keeps no residual
buffer, so a record split across a chunk boundary is lost there (see the
counterexample). -/
theorem c1_streaming_chunk_invariance (chunks : List Str) :
    streamLines chunks = streamLines [chunks.flatten] ∧
      ∀ {α : Type} (parse : Str → Option α),
        (streamLines chunks).filterMap parse =
          (streamLines [chunks.flatten]).filterMap parse := by
  refine ⟨streamLines_chunk_invariant chunks, ?_⟩
  intro α parse
  rw [streamLines_chunk_invariant chunks]

/-- A complete step_finish wire record. -/
def sfLine : Str :=
  str "\x7b\"type\":\"step_finish\",\"sessionID\":\"s1\",\"part\":\x7b\"reason\":\"stop\",\"tokens\":\x7b\"input\":5,\"output\":2\x7d\x7d\x7d"

set_option maxRecDepth 100000 in
/-- C1 counterexample: the buffered OpenCode entry point fed the same byte
stream as two chunks whose boundary falls inside a step_finish record
yields a different result (the record is silently dropped) than one chunk
with the full output, refuting chunk-boundary invariance for the buffered
entry point. -/
theorem c1_counterexample :
    [sfLine.take 17, sfLine.drop 17 ++ ['\n']].flatten =
        [sfLine ++ ['\n']].flatten ∧
      ocGenerate none [] [sfLine.take 17, sfLine.drop 17 ++ ['\n']] 0 ≠
        ocGenerate none [] [sfLine ++ ['\n']] 0 := by
  constructor
  · simp [← List.append_assoc, List.take_append_drop]
  · decide

/-- C3 (amended): in buffered (generate) mode a non-zero exit code always
rejects the call with an exit-code error, in the OpenCode and the Letta
adapter alike, regardless of how much textual output was already received;
only a zero exit resolves the call, with the accumulated output. -/
theorem c3_nonzero_exit_always_rejects (key? : Option Str) (smap : SMap)
    (chunks : List Str) (code : Int) (h : code ≠ 0) :
    ocGenerate key? smap chunks code = .error (.exitCode code) ∧
    lettaGenerate key? smap chunks code = .error (.exitCode code) ∧
    (∃ r, ocGenerate key? smap chunks 0 = .ok r) ∧
    (∃ r, lettaGenerate key? smap chunks 0 = .ok r) := by
  refine ⟨?_, ?_, ⟨_, rfl⟩, ⟨_, rfl⟩⟩
  · simp [ocGenerate, h]
  · simp [lettaGenerate, h]

theorem c3_witness :
    ocGenerate none [] [] 1 = .error (.exitCode 1) :=
  (c3_nonzero_exit_always_rejects none [] [] 1 (by decide)).1

/-- A complete text wire record carrying the text hello. -/
def helloLine : Str :=
  str "\x7b\"type\":\"text\",\"sessionID\":\"s1\",\"part\":\x7b\"text\":\"hello\"\x7d\x7d"

/-- C3 counterexample: a buffered OpenCode run that has fully received the
textual output hello and then sees exit code 1 rejects with an exit-code
error instead of resolving with the partial output, refuting the claimed
partial-output asymmetry. -/
theorem c3_counterexample :
    (ocGenAccum none [] [helloLine ++ ['\n']]).output = str "hello" ∧
    ocGenerate none [] [helloLine ++ ['\n']] 1 = .error (.exitCode 1) := by
  constructor <;> decide

/-!
## Cumulative-text normalization (doStream text branches)
-/

/-- One step of the OpenCode cumulative-text normalization: when the
incoming full text differs from the last seen text, the delta is the grown
suffix when the new text extends the old one, otherwise the whole new
text; an empty delta is not emitted. -/
def ocFeedText (last content : Str) : List Str × Str :=
  if content = last then ([], last)
  else
    let delta :=
      if last.isPrefixOf content then content.drop last.length else content
    ((if delta = [] then [] else [delta]), content)

/-- Fold of ocFeedText over a sequence of cumulative text events, collecting
the emitted deltas. -/
def ocRunText : Str → List Str → List Str × Str
  | last, [] => ([], last)
  | last, s :: ss =>
    let p := ocFeedText last s
    let q := ocRunText p.2 ss
    (p.1 ++ q.1, q.2)

/-- One step of the Gemini delta-mode normalization: the delta is the slice
of the new content past the previous content length; an empty delta is not
emitted. -/
def gemFeedText (last content : Str) : List Str × Str :=
  let deltaText := content.drop last.length
  ((if deltaText = [] then [] else [deltaText]), content)

/-- Fold of gemFeedText over a sequence of cumulative text events. -/
def gemRunText : Str → List Str → List Str × Str
  | last, [] => ([], last)
  | last, s :: ss =>
    let p := gemFeedText last s
    let q := gemRunText p.2 ss
    (p.1 ++ q.1, q.2)

/-- Each string of the list extends the one before it, starting from the
given seed. -/
def prefixChainB : Str → List Str → Bool
  | _, [] => true
  | p, s :: ss => p.isPrefixOf s && prefixChainB s ss

theorem isPrefixOf_append_drop :
    ∀ p s : Str, p.isPrefixOf s = true → p ++ s.drop p.length = s
  | [], _, _ => by simp
  | _ :: _, [], h => by simp [List.isPrefixOf] at h
  | a :: p, b :: s, h => by
    rw [List.isPrefixOf, Bool.and_eq_true, beq_iff_eq] at h
    obtain ⟨h1, h2⟩ := h
    simp [h1, isPrefixOf_append_drop p s h2]

theorem isPrefixOf_self : ∀ s : Str, s.isPrefixOf s = true
  | [] => rfl
  | c :: s => by
    rw [List.isPrefixOf, Bool.and_eq_true, beq_iff_eq]
    exact ⟨rfl, isPrefixOf_self s⟩

theorem ocRunText_join :
    ∀ (ss : List Str) (last : Str), prefixChainB last ss = true →
      last ++ (ocRunText last ss).1.flatten = ss.getLastD last
  | [], last, _ => by simp [ocRunText]
  | s :: ss, last, h => by
    rw [prefixChainB, Bool.and_eq_true] at h
    obtain ⟨h1, h2⟩ := h
    rw [List.getLastD_cons]
    by_cases he : s = last
    · subst he
      simpa [ocRunText, ocFeedText] using ocRunText_join ss s h2
    · have hd : last ++ s.drop last.length = s := isPrefixOf_append_drop _ _ h1
      have hdne : s.drop last.length ≠ [] := by
        intro h0
        rw [h0, List.append_nil] at hd
        exact he hd.symm
      have htail := ocRunText_join ss s h2
      simp only [ocRunText, ocFeedText, if_neg he, if_pos h1, if_neg hdne,
        List.flatten_cons, List.singleton_append]
      rw [← List.append_assoc, hd, htail]

theorem gemRunText_join :
    ∀ (ss : List Str) (last : Str), prefixChainB last ss = true →
      last ++ (gemRunText last ss).1.flatten = ss.getLastD last
  | [], last, _ => by simp [gemRunText]
  | s :: ss, last, h => by
    rw [prefixChainB, Bool.and_eq_true] at h
    obtain ⟨h1, h2⟩ := h
    rw [List.getLastD_cons]
    have hd : last ++ s.drop last.length = s := isPrefixOf_append_drop _ _ h1
    have htail := gemRunText_join ss s h2
    by_cases hdn : s.drop last.length = []
    · have hls : last = s := by
        have := hd
        rw [hdn, List.append_nil] at this
        exact this
      simp only [gemRunText, gemFeedText, if_pos hdn, List.nil_append]
      rw [hls]
      exact htail
    · simp only [gemRunText, gemFeedText, if_neg hdn, List.flatten_cons,
        List.singleton_append]
      rw [← List.append_assoc, hd, htail]

/-- C4: in both cumulative-text adapters (OpenCode, and Gemini in delta
mode), for every event sequence of cumulative strings each extending the
previous one, the concatenation of the emitted text deltas is exactly the
final string: nothing dropped, nothing duplicated. -/
theorem c4_cumulative_to_delta (ss : List Str)
    (h : prefixChainB [] ss = true) :
    (ocRunText [] ss).1.flatten = ss.getLastD [] ∧
    (gemRunText [] ss).1.flatten = ss.getLastD [] := by
  constructor
  · simpa using ocRunText_join ss [] h
  · simpa using gemRunText_join ss [] h

theorem c4_witness :
    prefixChainB [] [str "Hel", str "Hello"] = true ∧
    ((ocRunText [] [str "Hel", str "Hello"]).1.flatten =
        [str "Hel", str "Hello"].getLastD [] ∧
      (gemRunText [] [str "Hel", str "Hello"]).1.flatten =
        [str "Hel", str "Hello"].getLastD []) :=
  ⟨by decide, c4_cumulative_to_delta _ (by decide)⟩

/-- C5 (amended): in the OpenCode adapter, when the new cumulative string
does not extend the last seen one, the whole new string is emitted as the
delta (as a single delta when non-empty, and nothing when the new string is
empty) and becomes the new last-seen string.  The Gemini delta-mode
adapter has no such reset handling: it always slices past the previous
length, so a non-extending update does not emit the whole new string (see
the counterexample). -/
theorem c5_reset_whole_string (last content : Str)
    (h : ¬ last.isPrefixOf content = true) :
    (ocFeedText last content).1.flatten = content ∧
    (ocFeedText last content).2 = content := by
  have hne : content ≠ last := fun he => h (he ▸ isPrefixOf_self content)
  have hval : ocFeedText last content =
      ((if content = [] then [] else [content]), content) := by
    unfold ocFeedText
    rw [if_neg hne]
    simp only [if_neg h]
  rw [hval]
  by_cases hc : content = []
  · rw [if_pos hc]
    exact ⟨hc.symm ▸ rfl, rfl⟩
  · rw [if_neg hc]
    exact ⟨by simp, rfl⟩

theorem c5_witness :
    (¬ (str "abc").isPrefixOf (str "xy") = true) ∧
    ((ocFeedText (str "abc") (str "xy")).1.flatten = str "xy" ∧
      (ocFeedText (str "abc") (str "xy")).2 = str "xy") :=
  ⟨by decide, c5_reset_whole_string (str "abc") (str "xy") (by decide)⟩

/-- C5 counterexample: the Gemini delta-mode adapter, with last seen string
abc and new string xy (which does not extend abc), emits no delta at all
rather than the whole new string. -/
theorem c5_counterexample :
    (¬ (str "abc").isPrefixOf (str "xy") = true) ∧
    (gemFeedText (str "abc") (str "xy")).1 = [] ∧
    (gemFeedText (str "abc") (str "xy")).1.flatten ≠ str "xy" := by
  decide

/-!
## Uniform stream events and the ReadableStream controller

The controller model follows the WHATWG semantics under prompt consumption
of the queue: enqueue and close throw (return none, caught by the handler
try/catch) unless the stream is open; error is a no-op unless the stream is
open.  The events field is the sequence of delivered stream events.
-/

inductive SEv
  | textStart
  | textDelta (delta : Str)
  | textEnd
  | finish (finishReason : Str) (inputTokens outputTokens : Nat)
deriving DecidableEq

inductive CtrlState
  | opn
  | closed
  | errored
deriving DecidableEq

structure Ctrl where
  events : List SEv
  state : CtrlState
deriving DecidableEq

/-- controller.enqueue: throws unless the stream is open. -/
def enq (c : Ctrl) (e : SEv) : Option Ctrl :=
  match c.state with
  | .opn => some { c with events := c.events ++ [e] }
  | _ => none

/-- controller.close: throws unless the stream is open. -/
def cclose (c : Ctrl) : Option Ctrl :=
  match c.state with
  | .opn => some { c with state := .closed }
  | _ => none

/-- controller.error: no-op unless the stream is open. -/
def cerror (c : Ctrl) : Ctrl :=
  match c.state with
  | .opn => { c with state := .errored }
  | _ => c

/-- Observation log of tool narration, recorded exactly when the
corresponding text-delta enqueue succeeds. -/
inductive ToolAct
  | announce (callID : Str)
  | narrateDone (callID : Str)
  | narrateErr (callID : Str)
  | narrateRet
deriving DecidableEq

/-!
## OpenCode doStream state machine
-/

structure OCSt where
  streamClosed : Bool
  textStartSent : Bool
  totalInputTokens : Nat
  totalOutputTokens : Nat
  lastTextContent : Str
  activeTools : List Str
  smap : SMap
  key? : Option Str
  ctrl : Ctrl
  toolLog : List ToolAct
deriving DecidableEq

def ocInit (key? : Option Str) (smap : SMap) : OCSt :=
  ⟨false, false, 0, 0, [], [], smap, key?, ⟨[], .opn⟩, []⟩

/-- Enqueue a stream event; none models the exception thrown by enqueue on
a non-open controller, which the per-line try/catch swallows. -/
def emitOC (s : OCSt) (e : SEv) : Option OCSt :=
  match enq s.ctrl e with
  | some c => some { s with ctrl := c }
  | none => none

/-- The repeated source fragment: if (!textStartSent) { enqueue text-start;
textStartSent = true }. -/
def ensureTextStart (s : OCSt) : Option OCSt :=
  if s.textStartSent then some s
  else
    match emitOC s .textStart with
    | some s1 => some { s1 with textStartSent := true }
    | none => none

def thinkingOC : Str := str "\n*Thinking...*\n\n"

/-- tool.state.title || toolName. -/
def ocToolTitle (t : OCTool) : Str :=
  match t.title? with
  | some ti => if ti.isEmpty then t.tool else ti
  | none => t.tool

/-- Pending/running announcement text. -/
def ocAnnounceMsg (t : OCTool) : Str :=
  let base := str "\n\n---\n**Tool: " ++ ocToolTitle t ++ str "**\n"
  match t.input? with
  | some inputStr =>
    if inputStr.length < 200 then
      base ++ str "```json\n" ++ inputStr ++ str "\n```\n"
    else base
  | none => base

/-- Format tool output for display: truncate past maxLength with a
truncation marker (formatToolOutput of the source). -/
def formatToolOutput (output? : Option Str) (maxLength : Nat) : Str :=
  match output? with
  | none => []
  | some o =>
    if o.length ≤ maxLength then o
    else o.take maxLength ++ str "\n... (truncated)"

/-- Completion narration text. -/
def ocCompletedMsg (t : OCTool) : Str :=
  let base := str "**" ++ ocToolTitle t ++ str "** completed\n"
  match t.output? with
  | some o =>
    if o.isEmpty then base ++ str "---\n\n"
    else base ++ str "```\n" ++ formatToolOutput (some o) 1000 ++ str "\n```\n---\n\n"
  | none => base ++ str "---\n\n"

/-- tool.state.error || Unknown error. -/
def ocErrMsgText (t : OCTool) : Str :=
  match t.error? with
  | some e => if e.isEmpty then str "Unknown error" else e
  | none => str "Unknown error"

/-- Error narration text. -/
def ocFailedMsg (t : OCTool) : Str :=
  str "**" ++ t.tool ++ str "** failed: " ++ ocErrMsgText t ++ str "\n---\n\n"

/-- The pending/running arm of the tool_use branch: announce only when the
call id is not yet tracked; the id is tracked before the enqueue. -/
def ocToolPendingBranch (s : OCSt) (t : OCTool) : OCSt × Bool :=
  if t.callID ∈ s.activeTools then (s, false)
  else
    let s1 := { s with activeTools := s.activeTools ++ [t.callID] }
    match emitOC s1 (.textDelta (ocAnnounceMsg t)) with
    | none => (s1, false)
    | some s2 => ({ s2 with toolLog := s2.toolLog ++ [.announce t.callID] }, false)

/-- One line of the OpenCode doStream data handler.  The returned Bool is
true when the handler executed the early return of the error branch,
abandoning the remaining lines of the same chunk.  A none line models a
line that failed JSON parsing (logged, no effect).  Each none branch of an
emit models the swallowed exception: effects performed before the throwing
enqueue persist, the rest of the line handling is skipped. -/
def ocLine (s : OCSt) (line? : Option OCEvent) : OCSt × Bool :=
  match line? with
  | none => (s, false)
  | some ev =>
    let s := { s with smap := parseAndStoreSessionId s.key? s.smap ev.sid }
    match ev with
    | .errorEv _ _ _ =>
      ({ s with ctrl := cerror s.ctrl, streamClosed := true }, true)
    | .stepStart _ _ =>
      match ensureTextStart s with
      | none => (s, false)
      | some s1 =>
        match emitOC s1 (.textDelta thinkingOC) with
        | none => (s1, false)
        | some s2 => (s2, false)
    | .text _ content =>
      match ensureTextStart s with
      | none => (s, false)
      | some s1 =>
        let p := ocFeedText s1.lastTextContent content
        let s2 := { s1 with lastTextContent := p.2 }
        match p.1 with
        | [] => (s2, false)
        | d :: _ =>
          match emitOC s2 (.textDelta d) with
          | none => (s2, false)
          | some s3 => (s3, false)
    | .toolUse _ t =>
      match ensureTextStart s with
      | none => (s, false)
      | some s1 =>
        match t.status with
        | .pending => ocToolPendingBranch s1 t
        | .running => ocToolPendingBranch s1 t
        | .completed =>
          let s2 := { s1 with
            activeTools := s1.activeTools.filter (fun x => x ≠ t.callID) }
          match emitOC s2 (.textDelta (ocCompletedMsg t)) with
          | none => (s2, false)
          | some s3 =>
            ({ s3 with toolLog := s3.toolLog ++ [.narrateDone t.callID] }, false)
        | .errorS =>
          let s2 := { s1 with
            activeTools := s1.activeTools.filter (fun x => x ≠ t.callID) }
          match emitOC s2 (.textDelta (ocFailedMsg t)) with
          | none => (s2, false)
          | some s3 =>
            ({ s3 with toolLog := s3.toolLog ++ [.narrateErr t.callID] }, false)
    | .stepFinish _ reason i o =>
      let s1 := { s with totalInputTokens := s.totalInputTokens + i,
                         totalOutputTokens := s.totalOutputTokens + o }
      if reason = .stop then
        match (if s1.textStartSent then emitOC s1 .textEnd else some s1) with
        | none => (s1, false)
        | some s2 =>
          match emitOC s2
              (.finish (str "stop") s2.totalInputTokens s2.totalOutputTokens) with
          | none => (s2, false)
          | some s3 =>
            if s3.streamClosed then (s3, false)
            else
              let s4 := { s3 with streamClosed := true }
              match cclose s4.ctrl with
              | none => (s4, false)
              | some c => ({ s4 with ctrl := c }, false)
      else (s1, false)

/-- The loop over complete lines of one data chunk, with the early return
of the error branch. -/
def ocLines (s : OCSt) : List (Option OCEvent) → OCSt
  | [] => s
  | l :: ls =>
    match ocLine s l with
    | (s1, true) => s1
    | (s1, false) => ocLines s1 ls

def ocChunks (s : OCSt) (chunks : List (List (Option OCEvent))) : OCSt :=
  chunks.foldl ocLines s

/-- The OpenCode doStream close handler: parse the residual buffer as a
last-chance record (session capture plus step_finish token accumulation)
when the stream is not yet settled, then, when not settled, emit text-end
(if a text block is open) and a finish whose reason depends on the exit
code, and close the stream. -/
def ocClose (s : OCSt) (residual? : Option OCEvent) (code : Option Int) : OCSt :=
  let s1 :=
    match residual? with
    | some ev =>
      if s.streamClosed then s
      else
        let sa := { s with smap := parseAndStoreSessionId s.key? s.smap ev.sid }
        match ev with
        | .stepFinish _ _ i o =>
          { sa with totalInputTokens := sa.totalInputTokens + i,
                    totalOutputTokens := sa.totalOutputTokens + o }
        | _ => sa
    | none => s
  if s1.streamClosed then s1
  else
    match (if s1.textStartSent then emitOC s1 .textEnd else some s1) with
    | none => s1
    | some s2 =>
      match emitOC s2 (.finish (if code = some 0 then str "stop" else str "error")
          s2.totalInputTokens s2.totalOutputTokens) with
      | none => s2
      | some s3 =>
        let s4 := { s3 with streamClosed := true }
        match cclose s4.ctrl with
        | none => s4
        | some c => { s4 with ctrl := c }

/-- One whole OpenCode streaming call: the chunk sequence delivered by the
data events, then the close event with the parse result of the residual
buffer and the exit code. -/
def ocRunStream (key? : Option Str) (smap : SMap)
    (chunks : List (List (Option OCEvent))) (residual? : Option OCEvent)
    (code : Option Int) : OCSt :=
  ocClose (ocChunks (ocInit key? smap) chunks) residual? code

/-!
## Letta doStream state machine
-/

structure LUsagePair where
  prompt? : Option Nat
  completion? : Option Nat
deriving DecidableEq

inductive LEvent
  | init (agentId : Str) (model : Str)
  | msgAssistant (content : Str)
  | msgToolCall (id? : Option Str) (name : Str) (args? : Option Str)
  | msgToolReturn (ret? : Option Str)
  | msgUsage (prompt? completion? : Option Nat)
  | msgOther
  | result (isError : Bool) (res : Str) (agentId : Str) (usage? : Option LUsagePair)
deriving DecidableEq

structure LettaSt where
  streamClosed : Bool
  textStartSent : Bool
  totalInputTokens : Nat
  totalOutputTokens : Nat
  activeTools : List Str
  smap : SMap
  key? : Option Str
  ctrl : Ctrl
  toolLog : List ToolAct
deriving DecidableEq

def emitL (s : LettaSt) (e : SEv) : Option LettaSt :=
  match enq s.ctrl e with
  | some c => some { s with ctrl := c }
  | none => none

def ensureTextStartL (s : LettaSt) : Option LettaSt :=
  if s.textStartSent then some s
  else
    match emitL s .textStart with
    | some s1 => some { s1 with textStartSent := true }
    | none => none

def lettaThinking : Str := str "*Thinking...*\n\n"

/-- The Letta stream construction: the Thinking indicator is emitted
unconditionally before any process output arrives. -/
def lettaInit (key? : Option Str) (smap : SMap) : LettaSt :=
  let s0 : LettaSt := ⟨false, false, 0, 0, [], smap, key?, ⟨[], .opn⟩, []⟩
  match emitL s0 .textStart with
  | none => s0
  | some s1 =>
    let s2 := { s1 with textStartSent := true }
    match emitL s2 (.textDelta lettaThinking) with
    | none => s2
    | some s3 => s3

/-- The Letta conditional agent-id capture (init and result events of
doStream): store only when the current session key holds no id yet. -/
def lettaCaptureAgentId (key? : Option Str) (m : SMap) (agentId : Str) : SMap :=
  if truthyOpt key? && !agentId.isEmpty then
    let k := key?.getD []
    match mget k m with
    | some v => if v.isEmpty then mstore k agentId m else m
    | none => mstore k agentId m
  else m

/-- event.id || toolName. -/
def lettaCallId (id? : Option Str) (name : Str) : Str :=
  match id? with
  | some i => if i.isEmpty then name else i
  | none => name

/-- Tool-call announcement text. -/
def lettaToolMsg (name : Str) (args? : Option Str) : Str :=
  let base := str "\n\n---\n**Tool: " ++ name ++ str "**\n"
  match args? with
  | some argsStr =>
    if argsStr.length < 500 then
      base ++ str "```json\n" ++ argsStr ++ str "\n```\n"
    else base
  | none => base

/-- JavaScript x || 0 for an optional token count. -/
def orZero : Option Nat → Nat
  | some v => v
  | none => 0

/-- JavaScript x || old for an optional token count (0 and absent are
falsy and keep the old total). -/
def orKeep (x? : Option Nat) (old : Nat) : Nat :=
  match x? with
  | some v => if v = 0 then old else v
  | none => old

/-- The emission part of the Letta result branch: final-result text when
nothing was streamed yet, then text-end, finish, and close.  Each pair
carries the aborted flag of a swallowed enqueue exception. -/
def lettaResultEmit (s : LettaSt) (isError : Bool) (res : Str) : LettaSt :=
  let p1 : LettaSt × Bool :=
    if s.textStartSent = false ∧ res.isEmpty = false then
      match emitL s .textStart with
      | none => (s, true)
      | some sa =>
        let sb := { sa with textStartSent := true }
        match emitL sb (.textDelta res) with
        | none => (sb, true)
        | some sc => (sc, false)
    else (s, false)
  if p1.2 then p1.1
  else
    let s2 := p1.1
    let p2 : LettaSt × Bool :=
      if s2.textStartSent then
        match emitL s2 .textEnd with
        | none => (s2, true)
        | some sa => (sa, false)
      else (s2, false)
    if p2.2 then p2.1
    else
      let s3 := p2.1
      match emitL s3 (.finish (if isError then str "error" else str "stop")
          s3.totalInputTokens s3.totalOutputTokens) with
      | none => s3
      | some s4 =>
        if s4.streamClosed then s4
        else
          let s5 := { s4 with streamClosed := true }
          match cclose s5.ctrl with
          | none => s5
          | some c => { s5 with ctrl := c }

/-- One line of the Letta doStream data handler. -/
def lettaLine (s : LettaSt) (line? : Option LEvent) : LettaSt :=
  match line? with
  | none => s
  | some ev =>
    match ev with
    | .init agentId _ =>
      { s with smap := lettaCaptureAgentId s.key? s.smap agentId }
    | .msgAssistant content =>
      if content.isEmpty then s
      else
        match ensureTextStartL s with
        | none => s
        | some s1 =>
          match emitL s1 (.textDelta content) with
          | none => s1
          | some s2 => s2
    | .msgToolCall id? name args? =>
      let callId := lettaCallId id? name
      match ensureTextStartL s with
      | none => s
      | some s1 =>
        if callId ∈ s1.activeTools then s1
        else
          let s2 := { s1 with activeTools := s1.activeTools ++ [callId] }
          match emitL s2 (.textDelta (lettaToolMsg name args?)) with
          | none => s2
          | some s3 => { s3 with toolLog := s3.toolLog ++ [.announce callId] }
    | .msgToolReturn ret? =>
      match ret? with
      | none => s
      | some r =>
        match ensureTextStartL s with
        | none => s
        | some s1 =>
          match emitL s1 (.textDelta
              (str "```\n" ++ formatToolOutput (some r) 1000 ++
                str "\n```\n---\n\n")) with
          | none => s1
          | some s2 => { s2 with toolLog := s2.toolLog ++ [.narrateRet] }
    | .msgUsage prompt? completion? =>
      { s with totalInputTokens := orZero prompt?,
               totalOutputTokens := orZero completion? }
    | .msgOther => s
    | .result isError res agentId usage? =>
      let s1 := { s with smap := lettaCaptureAgentId s.key? s.smap agentId }
      let s2 :=
        match usage? with
        | some u =>
          { s1 with totalInputTokens := orKeep u.prompt? s1.totalInputTokens,
                    totalOutputTokens := orKeep u.completion? s1.totalOutputTokens }
        | none => s1
      lettaResultEmit s2 isError res

def lettaLines (s : LettaSt) (lines : List (Option LEvent)) : LettaSt :=
  lines.foldl lettaLine s

def lettaChunks (s : LettaSt) (chunks : List (List (Option LEvent))) : LettaSt :=
  chunks.foldl lettaLines s

/-- The Letta doStream close handler: last-chance usage from the residual
buffer, then text-end, finish by exit code, close. -/
def lettaClose (s : LettaSt) (residual? : Option LEvent) (code : Option Int) :
    LettaSt :=
  let s1 :=
    match residual? with
    | some (.result _ _ _ (some u)) =>
      if s.streamClosed then s
      else
        { s with totalInputTokens := orKeep u.prompt? s.totalInputTokens,
                 totalOutputTokens := orKeep u.completion? s.totalOutputTokens }
    | _ => s
  if s1.streamClosed then s1
  else
    match (if s1.textStartSent then emitL s1 .textEnd else some s1) with
    | none => s1
    | some s2 =>
      match emitL s2 (.finish (if code = some 0 then str "stop" else str "error")
          s2.totalInputTokens s2.totalOutputTokens) with
      | none => s2
      | some s3 =>
        let s4 := { s3 with streamClosed := true }
        match cclose s4.ctrl with
        | none => s4
        | some c => { s4 with ctrl := c }

/-- One whole Letta streaming call. -/
def lettaRunStream (key? : Option Str) (smap : SMap)
    (chunks : List (List (Option LEvent))) (residual? : Option LEvent)
    (code : Option Int) : LettaSt :=
  lettaClose (lettaChunks (lettaInit key? smap) chunks) residual? code

/-!
## Terminal-event uniqueness (C2)
-/

def isFinishEv : SEv → Bool
  | .finish _ _ _ => true
  | _ => false

/-- Number of finish events in a delivered event sequence. -/
def countFinish (evs : List SEv) : Nat := evs.countP isFinishEv

/-- The last delivered event is a finish. -/
def endsWithFinish (evs : List SEv) : Prop :=
  match evs.getLast? with
  | some (.finish _ _ _) => True
  | _ => False

/-- Exactly one terminal outcome was delivered: either the stream errored
and no finish event was ever delivered, or the stream closed and exactly
one finish event was delivered, as the last event. -/
def terminalOk (c : Ctrl) : Prop :=
  (c.state = .errored ∧ countFinish c.events = 0) ∨
  (c.state = .closed ∧ countFinish c.events = 1 ∧ endsWithFinish c.events)

theorem countFinish_append (evs : List SEv) (e : SEv) :
    countFinish (evs ++ [e]) =
      countFinish evs + (if isFinishEv e then 1 else 0) := by
  simp [countFinish, List.countP_append, List.countP_cons]

theorem countFinish_append_list (evs rest : List SEv) :
    countFinish (evs ++ rest) = countFinish evs + countFinish rest := by
  simp [countFinish, List.countP_append]

theorem countFinish_cons (e : SEv) (evs : List SEv) :
    countFinish (e :: evs) = countFinish evs + (if isFinishEv e then 1 else 0) := by
  simp [countFinish, List.countP_cons]

theorem countFinish_nil : countFinish [] = 0 := rfl

theorem endsWithFinish_append (evs : List SEv) (r : Str) (i o : Nat) :
    endsWithFinish (evs ++ [.finish r i o]) := by
  unfold endsWithFinish
  rw [List.getLast?_concat]
  trivial

theorem endsWithFinish_append2 (evs : List SEv) (e : SEv) (r : Str) (i o : Nat) :
    endsWithFinish (evs ++ [e, .finish r i o]) := by
  have hsplit : evs ++ [e, .finish r i o] = (evs ++ [e]) ++ [.finish r i o] := by
    simp
  rw [hsplit]
  exact endsWithFinish_append _ _ _ _

/-- On a settled controller the OpenCode line handler never changes the
delivered events or the controller state: every enqueue throws and is
swallowed and controller.error is a no-op. -/
theorem ocLine_frozen (s : OCSt) (l : Option OCEvent)
    (h : s.ctrl.state ≠ .opn) : (ocLine s l).1.ctrl = s.ctrl := by
  obtain ⟨sc, ts, ti, to2, lt, at2, sm, k, ⟨evs, cs⟩, log⟩ := s
  have hcs : cs ≠ .opn := h
  cases l with
  | none => rfl
  | some ev =>
    cases ev with
    | errorEv sid nm msg? =>
      cases cs with
      | opn => exact absurd rfl hcs
      | closed => simp [ocLine, cerror]
      | errored => simp [ocLine, cerror]
    | stepStart sid mid =>
      cases cs with
      | opn => exact absurd rfl hcs
      | closed => cases ts <;> simp [ocLine, ensureTextStart, emitOC, enq]
      | errored => cases ts <;> simp [ocLine, ensureTextStart, emitOC, enq]
    | text sid content =>
      rcases hp : ocFeedText lt content with ⟨ds, l2⟩
      cases cs with
      | opn => exact absurd rfl hcs
      | closed =>
        cases ts <;> cases ds <;>
          simp [ocLine, ensureTextStart, emitOC, enq, hp]
      | errored =>
        cases ts <;> cases ds <;>
          simp [ocLine, ensureTextStart, emitOC, enq, hp]
    | toolUse sid t =>
      cases cs with
      | opn => exact absurd rfl hcs
      | closed =>
        cases ts <;> cases hst : t.status <;>
          by_cases hmem : t.callID ∈ at2 <;>
            simp [ocLine, ensureTextStart, emitOC, enq, hst,
              ocToolPendingBranch, hmem]
      | errored =>
        cases ts <;> cases hst : t.status <;>
          by_cases hmem : t.callID ∈ at2 <;>
            simp [ocLine, ensureTextStart, emitOC, enq, hst,
              ocToolPendingBranch, hmem]
    | stepFinish sid reason i o =>
      cases cs with
      | opn => exact absurd rfl hcs
      | closed =>
        cases ts <;> cases reason <;>
          simp [ocLine, emitOC, enq]
      | errored =>
        cases ts <;> cases reason <;>
          simp [ocLine, emitOC, enq]

/-- The streamClosed flag of the OpenCode machine is only ever set, never
cleared. -/
theorem ocLine_closed_mono (s : OCSt) (l : Option OCEvent)
    (h : s.streamClosed = true) : (ocLine s l).1.streamClosed = true := by
  obtain ⟨sc, ts, ti, to2, lt, at2, sm, k, ⟨evs, cs⟩, log⟩ := s
  have hsc : sc = true := h
  subst hsc
  cases l with
  | none => rfl
  | some ev =>
    cases ev with
    | errorEv sid nm msg? => rfl
    | stepStart sid mid =>
      cases cs <;> cases ts <;>
        simp [ocLine, ensureTextStart, emitOC, enq]
    | text sid content =>
      rcases hp : ocFeedText lt content with ⟨ds, l2⟩
      cases cs <;> cases ts <;> cases ds <;>
        simp [ocLine, ensureTextStart, emitOC, enq, hp]
    | toolUse sid t =>
      cases cs <;> cases ts <;> cases hst : t.status <;>
        by_cases hmem : t.callID ∈ at2 <;>
          simp [ocLine, ensureTextStart, emitOC, enq, hst,
            ocToolPendingBranch, hmem]
    | stepFinish sid reason i o =>
      cases cs <;> cases ts <;> cases reason <;>
        simp [ocLine, emitOC, enq, cclose]

/-- Invariant of the OpenCode streaming machine: either the stream is still
live (controller open, not settled, no finish delivered) or it has settled
with exactly one terminal outcome. -/
def InvOC (s : OCSt) : Prop :=
  (s.ctrl.state = .opn ∧ s.streamClosed = false ∧
      countFinish s.ctrl.events = 0) ∨
  (s.streamClosed = true ∧ terminalOk s.ctrl)

theorem ocLine_inv (s : OCSt) (l : Option OCEvent) (h : InvOC s) :
    InvOC (ocLine s l).1 := by
  rcases h with ⟨h1, h2, h3⟩ | ⟨h1, h2⟩
  · obtain ⟨sc, ts, ti, to2, lt, at2, sm, k, ⟨evs, cs⟩, log⟩ := s
    have hcs : cs = .opn := h1
    have hsc : sc = false := h2
    have hcount : countFinish evs = 0 := h3
    subst hcs hsc
    cases l with
    | none => exact Or.inl ⟨rfl, rfl, hcount⟩
    | some ev =>
      cases ev with
      | errorEv sid nm msg? =>
        right
        exact ⟨rfl, Or.inl ⟨rfl, hcount⟩⟩
      | stepStart sid mid =>
        left
        cases ts <;>
          simp [ocLine, ensureTextStart, emitOC, enq, countFinish_append_list,
            countFinish_cons, countFinish_nil, isFinishEv, hcount]
      | text sid content =>
        left
        rcases hp : ocFeedText lt content with ⟨ds, l2⟩
        cases ts <;> cases ds <;>
          simp [ocLine, ensureTextStart, emitOC, enq, hp,
            countFinish_append_list, countFinish_cons, countFinish_nil,
            isFinishEv, hcount]
      | toolUse sid t =>
        left
        cases ts <;> cases hst : t.status <;>
          by_cases hmem : t.callID ∈ at2 <;>
            simp [ocLine, ensureTextStart, emitOC, enq, hst,
              ocToolPendingBranch, hmem, countFinish_append_list,
              countFinish_cons, countFinish_nil, isFinishEv, hcount]
      | stepFinish sid reason i o =>
        cases reason with
        | stop =>
          right
          cases ts <;>
            simp [ocLine, emitOC, enq, cclose, terminalOk,
              countFinish_append_list, countFinish_cons, countFinish_nil,
              isFinishEv, hcount, endsWithFinish_append, endsWithFinish_append2]
        | toolCalls => exact Or.inl ⟨rfl, rfl, hcount⟩
        | errorR => exact Or.inl ⟨rfl, rfl, hcount⟩
  · have hno : s.ctrl.state ≠ .opn := by
      rcases h2 with ⟨he, _⟩ | ⟨he, _⟩ <;> simp [he]
    have hfr := ocLine_frozen s l hno
    have hcm := ocLine_closed_mono s l h1
    exact Or.inr ⟨hcm, hfr ▸ h2⟩

theorem endsWithFinish_append3 (evs : List SEv) (e1 e2 : SEv) (r : Str)
    (i o : Nat) : endsWithFinish (evs ++ [e1, e2, .finish r i o]) := by
  have hsplit : evs ++ [e1, e2, .finish r i o] =
      (evs ++ [e1, e2]) ++ [.finish r i o] := by simp
  rw [hsplit]
  exact endsWithFinish_append _ _ _ _

theorem endsWithFinish_append4 (evs : List SEv) (e1 e2 e3 : SEv) (r : Str)
    (i o : Nat) : endsWithFinish (evs ++ [e1, e2, e3, .finish r i o]) := by
  have hsplit : evs ++ [e1, e2, e3, .finish r i o] =
      (evs ++ [e1, e2, e3]) ++ [.finish r i o] := by simp
  rw [hsplit]
  exact endsWithFinish_append _ _ _ _

theorem ocLines_inv (lines : List (Option OCEvent)) :
    ∀ s : OCSt, InvOC s → InvOC (ocLines s lines) := by
  induction lines with
  | nil => intro s h; exact h
  | cons l ls ih =>
    intro s h
    have h1 := ocLine_inv s l h
    unfold ocLines
    rcases hp : ocLine s l with ⟨s1, b⟩
    rw [hp] at h1
    cases b
    · simpa using ih s1 h1
    · simpa using h1

theorem ocChunks_inv (chunks : List (List (Option OCEvent))) :
    ∀ s : OCSt, InvOC s → InvOC (ocChunks s chunks) := by
  induction chunks with
  | nil => intro s h; exact h
  | cons c cs ih => intro s h; exact ih _ (ocLines_inv c s h)

theorem ocClose_terminal (s : OCSt) (residual? : Option OCEvent)
    (code : Option Int) (h : InvOC s) :
    terminalOk (ocClose s residual? code).ctrl ∧
    (ocClose s residual? code).streamClosed = true := by
  rcases h with ⟨h1, h2, h3⟩ | ⟨h1, h2⟩
  · obtain ⟨sc, ts, ti, to2, lt, at2, sm, k, ⟨evs, cs⟩, log⟩ := s
    have hcs : cs = .opn := h1
    have hsc : sc = false := h2
    have hcount : countFinish evs = 0 := h3
    subst hcs hsc
    rcases residual? with _ | ev
    · cases ts <;>
        simp [ocClose, emitOC, enq, cclose, terminalOk,
          countFinish_append_list, countFinish_cons, countFinish_nil,
          isFinishEv, hcount, endsWithFinish_append, endsWithFinish_append2]
    · cases ev <;> cases ts <;>
        simp [ocClose, emitOC, enq, cclose, terminalOk,
          countFinish_append_list, countFinish_cons, countFinish_nil,
          isFinishEv, hcount, endsWithFinish_append, endsWithFinish_append2]
  · have heq : ocClose s residual? code = s := by
      rcases residual? with _ | ev
      · simp [ocClose, h1]
      · cases ev <;> simp [ocClose, h1]
    rw [heq]
    exact ⟨h2, h1⟩

/-!
## Letta invariants
-/

theorem lettaResultEmit_frozen (s : LettaSt) (isError : Bool) (res : Str)
    (h : s.ctrl.state ≠ .opn) :
    (lettaResultEmit s isError res).ctrl = s.ctrl := by
  obtain ⟨sc, ts, ti, to2, at2, sm, k, ⟨evs, cs⟩, log⟩ := s
  have hcs : cs ≠ .opn := h
  cases cs with
  | opn => exact absurd rfl hcs
  | closed =>
    cases ts <;> by_cases hre : res.isEmpty <;>
      simp [lettaResultEmit, emitL, enq, hre]
  | errored =>
    cases ts <;> by_cases hre : res.isEmpty <;>
      simp [lettaResultEmit, emitL, enq, hre]

theorem lettaResultEmit_closed_mono (s : LettaSt) (isError : Bool) (res : Str)
    (h : s.streamClosed = true) :
    (lettaResultEmit s isError res).streamClosed = true := by
  obtain ⟨sc, ts, ti, to2, at2, sm, k, ⟨evs, cs⟩, log⟩ := s
  have hsc : sc = true := h
  subst hsc
  cases cs <;> cases ts <;> by_cases hre : res.isEmpty <;>
    simp [lettaResultEmit, emitL, enq, cclose, hre]

theorem lettaResultEmit_open (s : LettaSt) (isError : Bool) (res : Str)
    (h1 : s.ctrl.state = .opn) (h2 : s.streamClosed = false)
    (h3 : countFinish s.ctrl.events = 0) :
    (lettaResultEmit s isError res).streamClosed = true ∧
    terminalOk (lettaResultEmit s isError res).ctrl := by
  obtain ⟨sc, ts, ti, to2, at2, sm, k, ⟨evs, cs⟩, log⟩ := s
  have hcs : cs = .opn := h1
  have hsc : sc = false := h2
  have hcount : countFinish evs = 0 := h3
  subst hcs hsc
  cases ts <;> by_cases hre : res.isEmpty <;> cases isError <;>
    simp [lettaResultEmit, emitL, enq, cclose, terminalOk, hre,
      countFinish_append_list, countFinish_cons, countFinish_nil,
      isFinishEv, hcount, endsWithFinish_append, endsWithFinish_append2,
      endsWithFinish_append3, endsWithFinish_append4]

def InvL (s : LettaSt) : Prop :=
  (s.ctrl.state = .opn ∧ s.streamClosed = false ∧
      countFinish s.ctrl.events = 0) ∨
  (s.streamClosed = true ∧ terminalOk s.ctrl)

theorem lettaLine_inv (s : LettaSt) (l : Option LEvent) (h : InvL s) :
    InvL (lettaLine s l) := by
  cases l with
  | none => exact h
  | some ev =>
    cases ev with
    | init agentId model =>
      rcases h with ⟨h1, h2, h3⟩ | ⟨h1, h2⟩
      · exact Or.inl ⟨h1, h2, h3⟩
      · exact Or.inr ⟨h1, h2⟩
    | msgUsage p? c? =>
      rcases h with ⟨h1, h2, h3⟩ | ⟨h1, h2⟩
      · exact Or.inl ⟨h1, h2, h3⟩
      · exact Or.inr ⟨h1, h2⟩
    | msgOther => exact h
    | msgAssistant content =>
      rcases h with ⟨h1, h2, h3⟩ | ⟨h1, h2⟩
      · obtain ⟨sc, ts, ti, to2, at2, sm, k, ⟨evs, cs⟩, log⟩ := s
        have hcs : cs = .opn := h1
        have hsc : sc = false := h2
        have hcount : countFinish evs = 0 := h3
        subst hcs hsc
        left
        by_cases hce : content.isEmpty <;> cases ts <;>
          simp [lettaLine, ensureTextStartL, emitL, enq, hce,
            countFinish_append_list, countFinish_cons, countFinish_nil,
            isFinishEv, hcount]
      · obtain ⟨sc, ts, ti, to2, at2, sm, k, ⟨evs, cs⟩, log⟩ := s
        have hsc : sc = true := h1
        subst hsc
        right
        rcases h2 with ⟨he, hc2⟩ | ⟨he, hc2⟩ <;>
          [(have hcs : cs = .errored := he); (have hcs : cs = .closed := he)] <;>
          subst hcs <;>
          by_cases hce : content.isEmpty <;> cases ts <;>
          simp_all [lettaLine, ensureTextStartL, emitL, enq, hce, terminalOk]
    | msgToolCall id? name args? =>
      rcases h with ⟨h1, h2, h3⟩ | ⟨h1, h2⟩
      · obtain ⟨sc, ts, ti, to2, at2, sm, k, ⟨evs, cs⟩, log⟩ := s
        have hcs : cs = .opn := h1
        have hsc : sc = false := h2
        have hcount : countFinish evs = 0 := h3
        subst hcs hsc
        left
        by_cases hmem : lettaCallId id? name ∈ at2 <;> cases ts <;>
          simp [lettaLine, ensureTextStartL, emitL, enq, hmem,
            countFinish_append_list, countFinish_cons, countFinish_nil,
            isFinishEv, hcount]
      · obtain ⟨sc, ts, ti, to2, at2, sm, k, ⟨evs, cs⟩, log⟩ := s
        have hsc : sc = true := h1
        subst hsc
        right
        rcases h2 with ⟨he, hc2⟩ | ⟨he, hc2⟩ <;>
          [(have hcs : cs = .errored := he); (have hcs : cs = .closed := he)] <;>
          subst hcs <;>
          by_cases hmem : lettaCallId id? name ∈ at2 <;> cases ts <;>
          simp_all [lettaLine, ensureTextStartL, emitL, enq, terminalOk]
    | msgToolReturn ret? =>
      rcases h with ⟨h1, h2, h3⟩ | ⟨h1, h2⟩
      · obtain ⟨sc, ts, ti, to2, at2, sm, k, ⟨evs, cs⟩, log⟩ := s
        have hcs : cs = .opn := h1
        have hsc : sc = false := h2
        have hcount : countFinish evs = 0 := h3
        subst hcs hsc
        left
        rcases ret? with _ | r <;> cases ts <;>
          simp [lettaLine, ensureTextStartL, emitL, enq,
            countFinish_append_list, countFinish_cons, countFinish_nil,
            isFinishEv, hcount]
      · obtain ⟨sc, ts, ti, to2, at2, sm, k, ⟨evs, cs⟩, log⟩ := s
        have hsc : sc = true := h1
        subst hsc
        right
        rcases h2 with ⟨he, hc2⟩ | ⟨he, hc2⟩ <;>
          [(have hcs : cs = .errored := he); (have hcs : cs = .closed := he)] <;>
          subst hcs <;>
          rcases ret? with _ | r <;> cases ts <;>
          simp_all [lettaLine, ensureTextStartL, emitL, enq, terminalOk]
    | result isError res agentId usage? =>
      have hstep : ∀ s2 : LettaSt, s2.ctrl = s.ctrl →
          s2.streamClosed = s.streamClosed → InvL (lettaResultEmit s2 isError res) := by
        intro s2 hc hsc2
        rcases h with ⟨h1, h2, h3⟩ | ⟨h1, h2⟩
        · have ho := lettaResultEmit_open s2 isError res (hc ▸ h1) (hsc2 ▸ h2)
            (hc ▸ h3)
          exact Or.inr ⟨ho.1, ho.2⟩
        · have hno : s2.ctrl.state ≠ .opn := by
            rcases h2 with ⟨he, _⟩ | ⟨he, _⟩ <;> simp [hc, he]
          have hfr := lettaResultEmit_frozen s2 isError res hno
          have hcm := lettaResultEmit_closed_mono s2 isError res (hsc2 ▸ h1)
          exact Or.inr ⟨hcm, (hfr.trans hc) ▸ h2⟩
      rcases usage? with _ | u
      · exact hstep _ rfl rfl
      · exact hstep _ rfl rfl

theorem lettaLines_inv (lines : List (Option LEvent)) :
    ∀ s : LettaSt, InvL s → InvL (lettaLines s lines) := by
  induction lines with
  | nil => intro s h; exact h
  | cons l ls ih =>
    intro s h
    exact ih _ (lettaLine_inv s l h)

theorem lettaChunks_inv (chunks : List (List (Option LEvent))) :
    ∀ s : LettaSt, InvL s → InvL (lettaChunks s chunks) := by
  induction chunks with
  | nil => intro s h; exact h
  | cons c cs ih => intro s h; exact ih _ (lettaLines_inv c s h)

theorem lettaClose_terminal (s : LettaSt) (residual? : Option LEvent)
    (code : Option Int) (h : InvL s) :
    terminalOk (lettaClose s residual? code).ctrl ∧
    (lettaClose s residual? code).streamClosed = true := by
  rcases h with ⟨h1, h2, h3⟩ | ⟨h1, h2⟩
  · obtain ⟨sc, ts, ti, to2, at2, sm, k, ⟨evs, cs⟩, log⟩ := s
    have hcs : cs = .opn := h1
    have hsc : sc = false := h2
    have hcount : countFinish evs = 0 := h3
    subst hcs hsc
    rcases residual? with _ | ev
    · cases ts <;>
        simp [lettaClose, emitL, enq, cclose, terminalOk,
          countFinish_append_list, countFinish_cons, countFinish_nil,
          isFinishEv, hcount, endsWithFinish_append, endsWithFinish_append2]
    · rcases ev with _ | _ | _ | _ | _ | _ | ⟨ie, re, aid, u?⟩
      case result =>
        rcases u? with _ | u <;> cases ts <;>
          simp [lettaClose, emitL, enq, cclose, terminalOk,
            countFinish_append_list, countFinish_cons, countFinish_nil,
            isFinishEv, hcount, endsWithFinish_append, endsWithFinish_append2]
      all_goals
        cases ts <;>
          simp [lettaClose, emitL, enq, cclose, terminalOk,
            countFinish_append_list, countFinish_cons, countFinish_nil,
            isFinishEv, hcount, endsWithFinish_append, endsWithFinish_append2]
  · have heq : lettaClose s residual? code = s := by
      rcases residual? with _ | ev
      · simp [lettaClose, h1]
      · rcases ev with _ | _ | _ | _ | _ | _ | ⟨ie, re, aid, u?⟩
        case result => rcases u? with _ | u <;> simp [lettaClose, h1]
        all_goals simp [lettaClose, h1]
    rw [heq]
    exact ⟨h2, h1⟩

theorem lettaInit_inv (key? : Option Str) (smap : SMap) :
    InvL (lettaInit key? smap) := by
  left
  refine ⟨rfl, rfl, rfl⟩

/-- C2: for every streaming call of the OpenCode adapter and of the Letta
adapter — over any chunk sequence, residual-buffer parse and exit code,
including runs where a terminal vendor event and the process-close callback
both occur and runs with several terminal vendor events in the same or in
different chunks — exactly one terminal outcome is delivered: either the
stream errors with no finish event ever delivered, or exactly one finish
event is delivered and it is the last event of the stream. -/
theorem c2_terminal_uniqueness :
    (∀ (key? : Option Str) (smap : SMap)
        (chunks : List (List (Option OCEvent))) (residual? : Option OCEvent)
        (code : Option Int),
      terminalOk (ocRunStream key? smap chunks residual? code).ctrl) ∧
    (∀ (key? : Option Str) (smap : SMap)
        (chunks : List (List (Option LEvent))) (residual? : Option LEvent)
        (code : Option Int),
      terminalOk (lettaRunStream key? smap chunks residual? code).ctrl) := by
  constructor
  · intro key? smap chunks residual? code
    exact (ocClose_terminal _ residual? code
      (ocChunks_inv chunks (ocInit key? smap) (Or.inl ⟨rfl, rfl, rfl⟩))).1
  · intro key? smap chunks residual? code
    exact (lettaClose_terminal _ residual? code
      (lettaChunks_inv chunks _ (lettaInit_inv key? smap))).1

/-!
## Usage accounting (C6)
-/

theorem ocLine_tokens_mono (s : OCSt) (l : Option OCEvent) :
    s.totalInputTokens ≤ (ocLine s l).1.totalInputTokens ∧
    s.totalOutputTokens ≤ (ocLine s l).1.totalOutputTokens := by
  obtain ⟨sc, ts, ti, to2, lt, at2, sm, k, ⟨evs, cs⟩, log⟩ := s
  cases l with
  | none => exact ⟨le_refl _, le_refl _⟩
  | some ev =>
    cases ev with
    | errorEv sid nm msg? => exact ⟨le_refl _, le_refl _⟩
    | stepStart sid mid =>
      cases cs <;> cases ts <;>
        simp [ocLine, ensureTextStart, emitOC, enq]
    | text sid content =>
      rcases hp : ocFeedText lt content with ⟨ds, l2⟩
      cases cs <;> cases ts <;> cases ds <;>
        simp [ocLine, ensureTextStart, emitOC, enq, hp]
    | toolUse sid t =>
      cases cs <;> cases ts <;> cases hst : t.status <;>
        by_cases hmem : t.callID ∈ at2 <;>
          simp [ocLine, ensureTextStart, emitOC, enq, hst,
            ocToolPendingBranch, hmem]
    | stepFinish sid reason i o =>
      cases cs <;> cases ts <;> cases reason <;> cases sc <;>
        simp [ocLine, emitOC, enq, cclose, Nat.le_add_right]

theorem ocLines_tokens_mono (lines : List (Option OCEvent)) :
    ∀ s : OCSt, s.totalInputTokens ≤ (ocLines s lines).totalInputTokens ∧
      s.totalOutputTokens ≤ (ocLines s lines).totalOutputTokens := by
  induction lines with
  | nil => intro s; exact ⟨le_refl _, le_refl _⟩
  | cons l ls ih =>
    intro s
    have h1 := ocLine_tokens_mono s l
    unfold ocLines
    rcases hp : ocLine s l with ⟨s1, b⟩
    rw [hp] at h1
    cases b
    · have h2 := ih s1
      simpa using ⟨h1.1.trans h2.1, h1.2.trans h2.2⟩
    · simpa using h1

theorem ocChunks_tokens_mono (chunks : List (List (Option OCEvent))) :
    ∀ s : OCSt, s.totalInputTokens ≤ (ocChunks s chunks).totalInputTokens ∧
      s.totalOutputTokens ≤ (ocChunks s chunks).totalOutputTokens := by
  induction chunks with
  | nil => intro s; exact ⟨le_refl _, le_refl _⟩
  | cons c cs ih =>
    intro s
    have h1 := ocLines_tokens_mono c s
    have h2 := ih (ocLines s c)
    exact ⟨h1.1.trans h2.1, h1.2.trans h2.2⟩

/-- C6 (amended): usage accounting differs per adapter.  In the OpenCode
streaming adapter the accumulated token totals only ever grow (and are
natural numbers, hence never negative) over any event sequence.  In the
Letta streaming adapter a usage_statistics event does not accumulate: it
overwrites both totals with the values carried by the event (zero or
missing fields become zero), so the totals can decrease mid-call before
any terminal result event (see the counterexample); only the terminal
result event keeps the old totals when its fields are missing or zero. -/
theorem c6_usage_accounting (s : OCSt) (ls : LettaSt)
    (chunks : List (List (Option OCEvent))) (p? c? : Option Nat) :
    (s.totalInputTokens ≤ (ocChunks s chunks).totalInputTokens ∧
      s.totalOutputTokens ≤ (ocChunks s chunks).totalOutputTokens) ∧
    ((lettaLine ls (some (.msgUsage p? c?))).totalInputTokens = orZero p? ∧
      (lettaLine ls (some (.msgUsage p? c?))).totalOutputTokens = orZero c?) := by
  exact ⟨ocChunks_tokens_mono chunks s, rfl, rfl⟩

/-- C6 counterexample: in the Letta adapter, a usage_statistics event
reporting 5 input tokens followed by one reporting 2 strictly decreases the
accumulated input-token total, before any terminal result event. -/
theorem c6_counterexample :
    (lettaLine (lettaLine (lettaInit none [])
          (some (.msgUsage (some 5) (some 3))))
        (some (.msgUsage (some 2) (some 1)))).totalInputTokens <
      (lettaLine (lettaInit none [])
        (some (.msgUsage (some 5) (some 3)))).totalInputTokens := by
  decide

/-!
## Cancellation (C7)
-/

/-- Events that do not terminate the stream: everything except an error
event and a step_finish with reason stop. -/
def ocNonTerminal : Option OCEvent → Bool
  | some (.errorEv _ _ _) => false
  | some (.stepFinish _ .stop _ _) => false
  | _ => true

theorem ocLine_stays_open (s : OCSt) (l : Option OCEvent)
    (h1 : s.ctrl.state = .opn) (h2 : s.streamClosed = false)
    (hnt : ocNonTerminal l = true) :
    (ocLine s l).1.ctrl.state = .opn ∧ (ocLine s l).1.streamClosed = false ∧
    (ocLine s l).2 = false := by
  obtain ⟨sc, ts, ti, to2, lt, at2, sm, k, ⟨evs, cs⟩, log⟩ := s
  have hcs : cs = .opn := h1
  have hsc : sc = false := h2
  subst hcs hsc
  cases l with
  | none => exact ⟨rfl, rfl, rfl⟩
  | some ev =>
    cases ev with
    | errorEv sid nm msg? => simp [ocNonTerminal] at hnt
    | stepStart sid mid =>
      cases ts <;> simp [ocLine, ensureTextStart, emitOC, enq]
    | text sid content =>
      rcases hp : ocFeedText lt content with ⟨ds, l2⟩
      cases ts <;> cases ds <;>
        simp [ocLine, ensureTextStart, emitOC, enq, hp]
    | toolUse sid t =>
      cases ts <;> cases hst : t.status <;>
        by_cases hmem : t.callID ∈ at2 <;>
          simp [ocLine, ensureTextStart, emitOC, enq, hst,
            ocToolPendingBranch, hmem]
    | stepFinish sid reason i o =>
      cases reason with
      | stop => simp [ocNonTerminal] at hnt
      | toolCalls => exact ⟨rfl, rfl, rfl⟩
      | errorR => exact ⟨rfl, rfl, rfl⟩

theorem ocLines_stays_open (lines : List (Option OCEvent)) :
    ∀ s : OCSt, s.ctrl.state = .opn → s.streamClosed = false →
      lines.all ocNonTerminal = true →
      (ocLines s lines).ctrl.state = .opn ∧
      (ocLines s lines).streamClosed = false := by
  induction lines with
  | nil => intro s h1 h2 _; exact ⟨h1, h2⟩
  | cons l ls ih =>
    intro s h1 h2 hall
    rw [List.all_cons, Bool.and_eq_true] at hall
    have hstep := ocLine_stays_open s l h1 h2 hall.1
    unfold ocLines
    rcases hp : ocLine s l with ⟨s1, b⟩
    rw [hp] at hstep
    have hb : b = false := hstep.2.2
    subst hb
    simpa using ih s1 hstep.1 hstep.2.1 hall.2

theorem ocChunks_stays_open (chunks : List (List (Option OCEvent))) :
    ∀ s : OCSt, s.ctrl.state = .opn → s.streamClosed = false →
      chunks.all (fun c => c.all ocNonTerminal) = true →
      (ocChunks s chunks).ctrl.state = .opn ∧
      (ocChunks s chunks).streamClosed = false := by
  induction chunks with
  | nil => intro s h1 h2 _; exact ⟨h1, h2⟩
  | cons c cs ih =>
    intro s h1 h2 hall
    rw [List.all_cons, Bool.and_eq_true] at hall
    have hstep := ocLines_stays_open c s h1 h2 hall.1
    exact ih _ hstep.1 hstep.2 hall.2

theorem ocLines_frozen (lines : List (Option OCEvent)) :
    ∀ s : OCSt, s.ctrl.state ≠ .opn → (ocLines s lines).ctrl = s.ctrl := by
  induction lines with
  | nil => intro s _; rfl
  | cons l ls ih =>
    intro s h
    have hfr := ocLine_frozen s l h
    unfold ocLines
    rcases hp : ocLine s l with ⟨s1, b⟩
    rw [hp] at hfr
    have h1 : s1.ctrl.state ≠ .opn := by rw [hfr]; exact h
    cases b
    · simpa using (ih s1 h1).trans hfr
    · simpa using hfr

theorem ocChunks_frozen (chunks : List (List (Option OCEvent))) :
    ∀ s : OCSt, s.ctrl.state ≠ .opn → (ocChunks s chunks).ctrl = s.ctrl := by
  induction chunks with
  | nil => intro s _; rfl
  | cons c cs ih =>
    intro s h
    have h1 := ocLines_frozen c s h
    have h2 : (ocLines s c).ctrl.state ≠ .opn := by rw [h1]; exact h
    exact (ih _ h2).trans h1

theorem getLast?_append_two (l : List SEv) (a b : SEv) :
    (l ++ [a, b]).getLast? = some b := by
  have h : l ++ [a, b] = (l ++ [a]) ++ [b] := by simp
  rw [h, List.getLast?_concat]

/-- A close on a live stream with a non-zero (or null) exit code closes the
stream with a final finish event carrying finishReason error and the final
token totals. -/
theorem ocClose_error_finish (s : OCSt) (residual? : Option OCEvent)
    (code : Option Int) (h1 : s.ctrl.state = .opn) (h2 : s.streamClosed = false)
    (hcode : code ≠ some 0) :
    (ocClose s residual? code).ctrl.state = .closed ∧
    (ocClose s residual? code).streamClosed = true ∧
    (ocClose s residual? code).ctrl.events.getLast? =
      some (.finish (str "error")
        (ocClose s residual? code).totalInputTokens
        (ocClose s residual? code).totalOutputTokens) := by
  obtain ⟨sc, ts, ti, to2, lt, at2, sm, k, ⟨evs, cs⟩, log⟩ := s
  have hcs : cs = .opn := h1
  have hsc : sc = false := h2
  subst hcs hsc
  have hcif : (if code = some 0 then str "stop" else str "error") = str "error" :=
    if_neg hcode
  rcases residual? with _ | ev
  · cases ts <;>
      simp [ocClose, emitOC, enq, cclose, hcif, List.getLast?_concat,
        getLast?_append_two]
  · cases ev <;> cases ts <;>
      simp [ocClose, emitOC, enq, cclose, hcif, List.getLast?_concat,
        getLast?_append_two]

/-- The abort wiring of the OpenCode doStream launcher: a single listener
is registered on the abort signal, and its only action is to send one
SIGTERM to the child process. -/
def ocAbortListeners : List Unit := [()]

/-- A streaming OpenCode call in which the external abort signal fires
mid-stream: pre are the chunks handled before the abort, the kill count is
the number of termination signals sent (one per registered listener; an
abort signal fires at most once), post are the data chunks already queued
before the termination, and the close callback then runs with the exit
status of the killed process (null exit code for a SIGTERM kill). -/
def ocRunStreamAborted (key? : Option Str) (smap : SMap)
    (pre post : List (List (Option OCEvent))) (residual? : Option OCEvent)
    (code : Option Int) : OCSt × Nat :=
  let s1 := ocChunks (ocInit key? smap) pre
  let kills := ocAbortListeners.length
  let s2 := ocChunks s1 post
  (ocClose s2 residual? code, kills)

/-- C7 (amended): when the abort signal fires mid-stream, the child
process receives exactly one termination signal; the abort handler itself
emits nothing; the call settles via the process close handling, which on
the killed (null or non-zero) exit synthesizes one final finish event with
finishReason error — not a stream error and not silence, contrary to the
claim that no finish event is synthesized after the abort — and after that
close no further stream event of any kind (in particular no text-delta) is
delivered, whatever data is still thrown at the handler. -/
theorem c7_cancellation (key? : Option Str) (smap : SMap)
    (pre post : List (List (Option OCEvent))) (residual? : Option OCEvent)
    (code : Option Int)
    (hpre : pre.all (fun c => c.all ocNonTerminal) = true)
    (hpost : post.all (fun c => c.all ocNonTerminal) = true)
    (hcode : code ≠ some 0) :
    (ocRunStreamAborted key? smap pre post residual? code).2 = 1 ∧
    (ocRunStreamAborted key? smap pre post residual? code).1.ctrl.state = .closed ∧
    (ocRunStreamAborted key? smap pre post residual? code).1.ctrl.events.getLast? =
      some (.finish (str "error")
        (ocRunStreamAborted key? smap pre post residual? code).1.totalInputTokens
        (ocRunStreamAborted key? smap pre post residual? code).1.totalOutputTokens) ∧
    ∀ extra,
      (ocChunks (ocRunStreamAborted key? smap pre post residual? code).1
        extra).ctrl =
        (ocRunStreamAborted key? smap pre post residual? code).1.ctrl := by
  have hopen1 := ocChunks_stays_open pre (ocInit key? smap) rfl rfl hpre
  have hopen2 := ocChunks_stays_open post _ hopen1.1 hopen1.2 hpost
  have hfin := ocClose_error_finish _ residual? code hopen2.1 hopen2.2 hcode
  have hstate : (ocRunStreamAborted key? smap pre post residual?
      code).1.ctrl.state = CtrlState.closed := hfin.1
  refine ⟨rfl, hfin.1, hfin.2.2, ?_⟩
  intro extra
  exact ocChunks_frozen extra _ (by simp [hstate])

theorem c7_witness :
    (([[some (OCEvent.text (str "s1") (str "hi"))]] :
          List (List (Option OCEvent))).all
        (fun c => c.all ocNonTerminal) = true ∧
      (([] : List (List (Option OCEvent))).all
        (fun c => c.all ocNonTerminal) = true) ∧
      (none : Option Int) ≠ some 0) ∧
    ((ocRunStreamAborted none [] [[some (OCEvent.text (str "s1") (str "hi"))]]
        [] none none).2 = 1 ∧
      (ocRunStreamAborted none [] [[some (OCEvent.text (str "s1") (str "hi"))]]
        [] none none).1.ctrl.state = .closed ∧
      (ocRunStreamAborted none [] [[some (OCEvent.text (str "s1") (str "hi"))]]
          [] none none).1.ctrl.events.getLast? =
        some (.finish (str "error")
          (ocRunStreamAborted none []
            [[some (OCEvent.text (str "s1") (str "hi"))]] [] none
            none).1.totalInputTokens
          (ocRunStreamAborted none []
            [[some (OCEvent.text (str "s1") (str "hi"))]] [] none
            none).1.totalOutputTokens) ∧
      ∀ extra,
        (ocChunks (ocRunStreamAborted none []
          [[some (OCEvent.text (str "s1") (str "hi"))]] [] none none).1
          extra).ctrl =
          (ocRunStreamAborted none []
            [[some (OCEvent.text (str "s1") (str "hi"))]] [] none
            none).1.ctrl) :=
  ⟨⟨by decide, by decide, by decide⟩,
    c7_cancellation none [] [[some (OCEvent.text (str "s1") (str "hi"))]] []
      none none (by decide) (by decide) (by decide)⟩

/-- C7 counterexample: after the abort and the close of the killed process
(null exit code), the stream ends with a synthesized finish event (with
finishReason error) and a normally closed stream — refuting the claim that
after an abort no finish event is synthesized and the call settles as an
error. -/
theorem c7_counterexample :
    (ocRunStreamAborted none [] [[some (OCEvent.text (str "s1") (str "hi"))]]
        [] none none).1.ctrl.events.getLast? =
      some (.finish (str "error") 0 0) ∧
    (ocRunStreamAborted none [] [[some (OCEvent.text (str "s1") (str "hi"))]]
        [] none none).1.ctrl.state = .closed := by
  decide

/-!
## Session capture (C8)
-/

theorem mem_keys_mstore (x k v : Str) :
    ∀ m : SMap, x ∈ (mstore k v m).map Prod.fst →
      x = k ∨ x ∈ m.map Prod.fst := by
  intro m
  induction m with
  | nil =>
    intro h
    simp [mstore] at h
    exact Or.inl h
  | cons kv rest ih =>
    rcases kv with ⟨k2, v2⟩
    by_cases hk : k2 = k
    · intro h
      simp [mstore, hk] at h
      rcases h with h | h
      · exact Or.inl h
      · exact Or.inr (by simp [h])
    · intro h
      simp [mstore, hk] at h
      rcases h with h | h
      · exact Or.inr (by simp [h])
      · rcases ih (by simpa using h) with h2 | h2
        · exact Or.inl h2
        · exact Or.inr (by simp [h2])

theorem mstore_keys_nodup (k v : Str) :
    ∀ m : SMap, (m.map Prod.fst).Nodup →
      ((mstore k v m).map Prod.fst).Nodup := by
  intro m
  induction m with
  | nil => intro _; simp [mstore]
  | cons kv rest ih =>
    rcases kv with ⟨k2, v2⟩
    intro h
    rw [List.map_cons, List.nodup_cons] at h
    by_cases hk : k2 = k
    · subst hk
      have hstep : mstore k2 v ((k2, v2) :: rest) = (k2, v) :: rest := by
        simp [mstore]
      rw [hstep, List.map_cons, List.nodup_cons]
      exact ⟨h.1, h.2⟩
    · have hstep : mstore k v ((k2, v2) :: rest) = (k2, v2) :: mstore k v rest := by
        simp [mstore, hk]
      rw [hstep, List.map_cons, List.nodup_cons]
      refine ⟨?_, ih h.2⟩
      intro hmem
      rcases mem_keys_mstore k2 k v rest hmem with h2 | h2
      · exact hk h2
      · exact h.1 h2

theorem mget_mstore_self (k v : Str) :
    ∀ m : SMap, mget k (mstore k v m) = some v := by
  intro m
  induction m with
  | nil => simp [mstore, mget]
  | cons kv rest ih =>
    rcases kv with ⟨k2, v2⟩
    by_cases hk : k2 = k
    · simp [mstore, mget, hk]
    · simp [mstore, mget, hk, ih]

/-- C8: the session map, an in-place-replacing string map, holds at most
one continuation token per key (key uniqueness is preserved by every
store); when the active key holds no token, the conditional captures of
the OpenCode adapter (parseAndStoreSessionId, on any event carrying a
session id) and of the Letta streaming adapter (init/result events) store
the incoming identifier; when a token is already stored every later
identifier leaves it unchanged; and the Letta full-response buffered
payload reporting an agent id overwrites the stored token
unconditionally. -/
theorem c8_session_capture (k sid t a : Str) (m : SMap)
    (hk : k.isEmpty = false) (hsid : sid.isEmpty = false)
    (ht : t.isEmpty = false) (ha : a.isEmpty = false) :
    ((m.map Prod.fst).Nodup → ∀ v : Str, ((mstore k v m).map Prod.fst).Nodup) ∧
    (mget k m = none →
      parseAndStoreSessionId (some k) m sid = mstore k sid m ∧
      lettaCaptureAgentId (some k) m sid = mstore k sid m) ∧
    (mget k m = some t →
      parseAndStoreSessionId (some k) m sid = m ∧
      lettaCaptureAgentId (some k) m sid = m) ∧
    (∀ (st : LettaGenSt) (chunk txt : Str) (i o : Nat),
      parseLettaResp chunk = some ⟨some txt, some a, some (i, o)⟩ →
      (lettaGenChunk (some k) st chunk).smap = mstore k a st.smap ∧
      mget k (mstore k a st.smap) = some a) := by
  refine ⟨fun hnd v => mstore_keys_nodup k v m hnd, ?_, ?_, ?_⟩
  · intro hnone
    constructor <;>
      simp [parseAndStoreSessionId, lettaCaptureAgentId, truthyOpt, hk, hsid,
        hnone]
  · intro hsome
    constructor <;>
      simp [parseAndStoreSessionId, lettaCaptureAgentId, truthyOpt, hk, hsid,
        hsome, ht]
  · intro st chunk txt i o hparse
    refine ⟨?_, mget_mstore_self k a st.smap⟩
    by_cases htxt : txt.isEmpty <;>
      simp [lettaGenChunk, hparse, hk, ha, htxt]

theorem c8_witness :
    ((str "k").isEmpty = false ∧ (str "s1").isEmpty = false ∧
      (str "t0").isEmpty = false ∧ (str "a1").isEmpty = false) ∧
    (((([(str "k", str "t0")] : SMap).map Prod.fst).Nodup →
        ∀ v : Str,
          ((mstore (str "k") v [(str "k", str "t0")]).map Prod.fst).Nodup) ∧
      (mget (str "k") [(str "k", str "t0")] = none →
        parseAndStoreSessionId (some (str "k")) [(str "k", str "t0")]
            (str "s1") =
          mstore (str "k") (str "s1") [(str "k", str "t0")] ∧
        lettaCaptureAgentId (some (str "k")) [(str "k", str "t0")]
            (str "s1") =
          mstore (str "k") (str "s1") [(str "k", str "t0")]) ∧
      (mget (str "k") [(str "k", str "t0")] = some (str "t0") →
        parseAndStoreSessionId (some (str "k")) [(str "k", str "t0")]
            (str "s1") = [(str "k", str "t0")] ∧
        lettaCaptureAgentId (some (str "k")) [(str "k", str "t0")]
            (str "s1") = [(str "k", str "t0")]) ∧
      (∀ (st : LettaGenSt) (chunk txt : Str) (i o : Nat),
        parseLettaResp chunk = some ⟨some txt, some (str "a1"), some (i, o)⟩ →
        (lettaGenChunk (some (str "k")) st chunk).smap =
          mstore (str "k") (str "a1") st.smap ∧
        mget (str "k") (mstore (str "k") (str "a1") st.smap) =
          some (str "a1"))) :=
  ⟨⟨by decide, by decide, by decide, by decide⟩,
    c8_session_capture (str "k") (str "s1") (str "t0") (str "a1")
      [(str "k", str "t0")] (by decide) (by decide) (by decide) (by decide)⟩

/-!
## Tool narration (C9)
-/

def isAnnounce (id : Str) : ToolAct → Bool
  | .announce i => i == id
  | _ => false

def isTermNarr (id : Str) : ToolAct → Bool
  | .narrateDone i => i == id
  | .narrateErr i => i == id
  | _ => false

/-- Number of pending/running announcements delivered for a call id. -/
def announceCount (id : Str) (log : List ToolAct) : Nat :=
  log.countP (isAnnounce id)

/-- Number of completion/error narrations delivered for a call id. -/
def narrCount (id : Str) (log : List ToolAct) : Nat :=
  log.countP (isTermNarr id)

/-- The line is a pending/running tool_use event for this call id. -/
def isPendFor (id : Str) : Option OCEvent → Bool
  | some (.toolUse _ t) =>
    t.callID == id && (t.status == .pending || t.status == .running)
  | _ => false

/-- The line is a completed/error tool_use event for this call id. -/
def isTermFor (id : Str) : Option OCEvent → Bool
  | some (.toolUse _ t) =>
    t.callID == id && (t.status == .completed || t.status == .errorS)
  | _ => false

def termCount (id : Str) (lines : List (Option OCEvent)) : Nat :=
  lines.countP (isTermFor id)

/-- No further lifecycle event for this call id. -/
def noMoreTool (id : Str) (lines : List (Option OCEvent)) : Bool :=
  lines.all fun l => !isPendFor id l && !isTermFor id l

/-- Well-formed lifecycle for one call id: at most one terminal
(completed/error) event, and nothing for the id after it. -/
def toolWf (id : Str) : List (Option OCEvent) → Bool
  | [] => true
  | l :: ls => if isTermFor id l then noMoreTool id ls else toolWf id ls

theorem announceCount_append (id : Str) (log : List ToolAct) (a : ToolAct) :
    announceCount id (log ++ [a]) =
      announceCount id log + (if isAnnounce id a then 1 else 0) := by
  simp [announceCount, List.countP_append, List.countP_cons]

theorem narrCount_append (id : Str) (log : List ToolAct) (a : ToolAct) :
    narrCount id (log ++ [a]) =
      narrCount id log + (if isTermNarr id a then 1 else 0) := by
  simp [narrCount, List.countP_append, List.countP_cons]

theorem termCount_cons (id : Str) (l : Option OCEvent)
    (ls : List (Option OCEvent)) :
    termCount id (l :: ls) =
      termCount id ls + (if isTermFor id l then 1 else 0) := by
  simp [termCount, List.countP_cons]

theorem termCount_zero_of_noMore (id : Str) (ls : List (Option OCEvent))
    (h : noMoreTool id ls = true) : termCount id ls = 0 := by
  rw [termCount, List.countP_eq_zero]
  intro a ha
  rw [noMoreTool, List.all_eq_true] at h
  have h2 := h a ha
  rw [Bool.and_eq_true, Bool.not_eq_true', Bool.not_eq_true'] at h2
  simp [h2.2]

theorem toolWf_cons_term (id : Str) (l : Option OCEvent)
    (ls : List (Option OCEvent)) (h : isTermFor id l = true)
    (hwf : toolWf id (l :: ls) = true) : noMoreTool id ls = true := by
  simpa [toolWf, h] using hwf

theorem toolWf_cons_other (id : Str) (l : Option OCEvent)
    (ls : List (Option OCEvent)) (h : isTermFor id l = false)
    (hwf : toolWf id (l :: ls) = true) : toolWf id ls = true := by
  simpa [toolWf, h] using hwf

theorem isPendFor_cases (id : Str) (l : Option OCEvent)
    (h : isPendFor id l = true) :
    ∃ sid t, l = some (.toolUse sid t) ∧ t.callID = id ∧
      (t.status = .pending ∨ t.status = .running) := by
  match l with
  | none => simp [isPendFor] at h
  | some (.stepStart _ _) => simp [isPendFor] at h
  | some (.text _ _) => simp [isPendFor] at h
  | some (.stepFinish _ _ _ _) => simp [isPendFor] at h
  | some (.errorEv _ _ _) => simp [isPendFor] at h
  | some (.toolUse sid t) =>
    rw [isPendFor, Bool.and_eq_true, Bool.or_eq_true] at h
    refine ⟨sid, t, rfl, by simpa using h.1, ?_⟩
    rcases h.2 with h2 | h2
    · exact Or.inl (by simpa using h2)
    · exact Or.inr (by simpa using h2)

theorem isTermFor_cases (id : Str) (l : Option OCEvent)
    (h : isTermFor id l = true) :
    ∃ sid t, l = some (.toolUse sid t) ∧ t.callID = id ∧
      (t.status = .completed ∨ t.status = .errorS) := by
  match l with
  | none => simp [isTermFor] at h
  | some (.stepStart _ _) => simp [isTermFor] at h
  | some (.text _ _) => simp [isTermFor] at h
  | some (.stepFinish _ _ _ _) => simp [isTermFor] at h
  | some (.errorEv _ _ _) => simp [isTermFor] at h
  | some (.toolUse sid t) =>
    rw [isTermFor, Bool.and_eq_true, Bool.or_eq_true] at h
    refine ⟨sid, t, rfl, by simpa using h.1, ?_⟩
    rcases h.2 with h2 | h2
    · exact Or.inl (by simpa using h2)
    · exact Or.inr (by simpa using h2)

theorem ocLine_pend_new (s : OCSt) (sid : Str) (t : OCTool)
    (h1 : s.ctrl.state = .opn)
    (hst : t.status = .pending ∨ t.status = .running)
    (hmem : t.callID ∉ s.activeTools) :
    t.callID ∈ (ocLine s (some (.toolUse sid t))).1.activeTools ∧
    (ocLine s (some (.toolUse sid t))).1.toolLog =
      s.toolLog ++ [.announce t.callID] := by
  obtain ⟨sc, ts, ti, to2, lt, at2, sm, k, ⟨evs, cs⟩, log⟩ := s
  have hcs : cs = .opn := h1
  subst hcs
  have hmem2 : t.callID ∉ at2 := hmem
  rcases hst with hst | hst <;> cases ts <;>
    simp [ocLine, ensureTextStart, emitOC, enq, hst, ocToolPendingBranch, hmem2]

theorem ocLine_pend_dup (s : OCSt) (sid : Str) (t : OCTool)
    (hst : t.status = .pending ∨ t.status = .running)
    (hmem : t.callID ∈ s.activeTools) :
    (ocLine s (some (.toolUse sid t))).1.activeTools = s.activeTools ∧
    (ocLine s (some (.toolUse sid t))).1.toolLog = s.toolLog := by
  obtain ⟨sc, ts, ti, to2, lt, at2, sm, k, ⟨evs, cs⟩, log⟩ := s
  have hmem2 : t.callID ∈ at2 := hmem
  rcases hst with hst | hst <;> cases cs <;> cases ts <;>
    simp [ocLine, ensureTextStart, emitOC, enq, hst, ocToolPendingBranch, hmem2]

theorem ocLine_term_id (s : OCSt) (sid : Str) (t : OCTool)
    (h1 : s.ctrl.state = .opn)
    (hst : t.status = .completed ∨ t.status = .errorS) :
    (ocLine s (some (.toolUse sid t))).1.activeTools =
      s.activeTools.filter (fun x => x ≠ t.callID) ∧
    ((ocLine s (some (.toolUse sid t))).1.toolLog =
        s.toolLog ++ [.narrateDone t.callID] ∨
      (ocLine s (some (.toolUse sid t))).1.toolLog =
        s.toolLog ++ [.narrateErr t.callID]) := by
  obtain ⟨sc, ts, ti, to2, lt, at2, sm, k, ⟨evs, cs⟩, log⟩ := s
  have hcs : cs = .opn := h1
  subst hcs
  rcases hst with hst | hst <;> cases ts <;>
    simp [ocLine, ensureTextStart, emitOC, enq, hst]

theorem ocLine_tool_other (s : OCSt) (l : Option OCEvent) (id : Str)
    (hp : isPendFor id l = false) (ht : isTermFor id l = false) :
    (id ∈ (ocLine s l).1.activeTools ↔ id ∈ s.activeTools) ∧
    announceCount id (ocLine s l).1.toolLog = announceCount id s.toolLog ∧
    narrCount id (ocLine s l).1.toolLog = narrCount id s.toolLog := by
  obtain ⟨sc, ts, ti, to2, lt, at2, sm, k, ⟨evs, cs⟩, log⟩ := s
  cases l with
  | none => exact ⟨Iff.rfl, rfl, rfl⟩
  | some ev =>
    cases ev with
    | errorEv sid nm msg? => exact ⟨Iff.rfl, rfl, rfl⟩
    | stepStart sid mid =>
      cases cs <;> cases ts <;>
        simp [ocLine, ensureTextStart, emitOC, enq]
    | text sid content =>
      rcases hfp : ocFeedText lt content with ⟨ds, l2⟩
      cases cs <;> cases ts <;> cases ds <;>
        simp [ocLine, ensureTextStart, emitOC, enq, hfp]
    | stepFinish sid reason i o =>
      cases cs <;> cases ts <;> cases reason <;> cases sc <;>
        simp [ocLine, emitOC, enq, cclose]
    | toolUse sid t =>
      have hcid : ¬ t.callID = id := by
        intro heq
        cases hstat : t.status
        · rw [isPendFor, hstat, heq] at hp; simp at hp
        · rw [isPendFor, hstat, heq] at hp; simp at hp
        · rw [isTermFor, hstat, heq] at ht; simp at ht
        · rw [isTermFor, hstat, heq] at ht; simp at ht
      have hid2 : ¬ id = t.callID := fun hh => hcid hh.symm
      cases cs <;> cases ts <;> cases hstat : t.status <;>
        by_cases hmem : t.callID ∈ at2 <;>
          simp [ocLine, ensureTextStart, emitOC, enq, hstat,
            ocToolPendingBranch, hmem, announceCount_append, narrCount_append,
            isAnnounce, isTermNarr, hcid, hid2, List.mem_filter,
            List.mem_append]

theorem ocTool_phase2 (id : Str) (lines : List (Option OCEvent)) :
    ∀ s : OCSt,
      noMoreTool id lines = true →
      announceCount id (ocLines s lines).toolLog = announceCount id s.toolLog ∧
      narrCount id (ocLines s lines).toolLog = narrCount id s.toolLog ∧
      (id ∈ (ocLines s lines).activeTools ↔ id ∈ s.activeTools) := by
  induction lines with
  | nil => intro s _; exact ⟨rfl, rfl, Iff.rfl⟩
  | cons l ls ih =>
    intro s hall
    rw [noMoreTool, List.all_cons, Bool.and_eq_true] at hall
    obtain ⟨hl, hrest⟩ := hall
    rw [Bool.and_eq_true, Bool.not_eq_true', Bool.not_eq_true'] at hl
    have hstep := ocLine_tool_other s l id hl.1 hl.2
    unfold ocLines
    rcases hp : ocLine s l with ⟨s1, b⟩
    rw [hp] at hstep
    dsimp only at hstep
    cases b
    · have h2 := ih s1 hrest
      exact ⟨h2.1.trans hstep.2.1, h2.2.1.trans hstep.2.2,
        h2.2.2.trans hstep.1⟩
    · exact ⟨hstep.2.1, hstep.2.2, hstep.1⟩

theorem ocTool_phase1 (id : Str) (lines : List (Option OCEvent)) :
    ∀ s : OCSt,
      s.ctrl.state = .opn → s.streamClosed = false →
      lines.all ocNonTerminal = true → toolWf id lines = true →
      ((announceCount id s.toolLog = 0 ∧ id ∉ s.activeTools) ∨
        (announceCount id s.toolLog = 1 ∧ id ∈ s.activeTools)) →
      narrCount id s.toolLog = 0 →
      announceCount id (ocLines s lines).toolLog ≤ 1 ∧
      narrCount id (ocLines s lines).toolLog = termCount id lines ∧
      (1 ≤ termCount id lines → id ∉ (ocLines s lines).activeTools) := by
  induction lines with
  | nil =>
    intro s _ _ _ _ hP hN
    refine ⟨?_, by simpa [ocLines, termCount] using hN, ?_⟩
    · rcases hP with ⟨h, _⟩ | ⟨h, _⟩ <;> simp [ocLines, h]
    · intro hge
      simp [termCount] at hge
  | cons l ls ih =>
    intro s h1 h2 hnt hwf hP hN
    rw [List.all_cons, Bool.and_eq_true] at hnt
    have hopen := ocLine_stays_open s l h1 h2 hnt.1
    unfold ocLines
    rcases hp : ocLine s l with ⟨s1, b⟩
    rw [hp] at hopen
    dsimp only at hopen
    have hb : b = false := hopen.2.2
    subst hb
    dsimp only
    by_cases hterm : isTermFor id l = true
    · have hnom : noMoreTool id ls = true := toolWf_cons_term id l ls hterm hwf
      obtain ⟨sid, t, hl, hcid, hst⟩ := isTermFor_cases id l hterm
      subst hl
      have hstep := ocLine_term_id s sid t h1 hst
      rw [hp] at hstep
      dsimp only at hstep
      have hph2 := ocTool_phase2 id ls s1 hnom
      have htc0 := termCount_zero_of_noMore id ls hnom
      have hnotin : id ∉ s1.activeTools := by
        rw [hstep.1, hcid]
        intro hmem
        have h3 := (List.mem_filter.mp hmem).2
        simp at h3
      have hann : announceCount id s1.toolLog = announceCount id s.toolLog := by
        rcases hstep.2 with he | he <;>
          rw [he, announceCount_append] <;> simp [isAnnounce]
      have hnarr : narrCount id s1.toolLog = narrCount id s.toolLog + 1 := by
        rcases hstep.2 with he | he <;>
          rw [he, narrCount_append] <;> simp [isTermNarr, hcid]
      refine ⟨?_, ?_, ?_⟩
      · rw [hph2.1, hann]
        rcases hP with ⟨h, _⟩ | ⟨h, _⟩ <;> simp [h]
      · rw [hph2.2.1, hnarr, hN, termCount_cons, hterm, htc0]
        simp
      · intro _
        rw [hph2.2.2]
        exact hnotin
    · have hterm2 : isTermFor id l = false := by simpa using hterm
      have hwf2 : toolWf id ls = true := toolWf_cons_other id l ls hterm2 hwf
      have htc : termCount id (l :: ls) = termCount id ls := by
        rw [termCount_cons, hterm2]
        simp
      rw [htc]
      by_cases hpend : isPendFor id l = true
      · obtain ⟨sid, t, hl, hcid, hst⟩ := isPendFor_cases id l hpend
        subst hl
        rcases hP with ⟨hc0, hnotin⟩ | ⟨hc1, hin⟩
        · have hmem : t.callID ∉ s.activeTools := by rw [hcid]; exact hnotin
          have hstep := ocLine_pend_new s sid t h1 hst hmem
          rw [hp] at hstep
          dsimp only at hstep
          have hann1 : announceCount id s1.toolLog = 1 := by
            rw [hstep.2, announceCount_append, hc0]
            simp [isAnnounce, hcid]
          have hnarr1 : narrCount id s1.toolLog = 0 := by
            rw [hstep.2, narrCount_append, hN]
            simp [isTermNarr]
          have hin1 : id ∈ s1.activeTools := hcid ▸ hstep.1
          exact ih s1 hopen.1 hopen.2.1 hnt.2 hwf2 (Or.inr ⟨hann1, hin1⟩) hnarr1
        · have hmem : t.callID ∈ s.activeTools := by rw [hcid]; exact hin
          have hstep := ocLine_pend_dup s sid t hst hmem
          rw [hp] at hstep
          dsimp only at hstep
          exact ih s1 hopen.1 hopen.2.1 hnt.2 hwf2
            (Or.inr ⟨by rw [hstep.2]; exact hc1, by rw [hstep.1]; exact hin⟩)
            (by rw [hstep.2]; exact hN)
      · have hpend2 : isPendFor id l = false := by simpa using hpend
        have hstep := ocLine_tool_other s l id hpend2 hterm2
        rw [hp] at hstep
        dsimp only at hstep
        have hP1 : (announceCount id s1.toolLog = 0 ∧ id ∉ s1.activeTools) ∨
            (announceCount id s1.toolLog = 1 ∧ id ∈ s1.activeTools) := by
          rcases hP with ⟨hc, hm⟩ | ⟨hc, hm⟩
          · exact Or.inl ⟨hstep.2.1.trans hc, fun hmm => hm (hstep.1.mp hmm)⟩
          · exact Or.inr ⟨hstep.2.1.trans hc, hstep.1.mpr hm⟩
        exact ih s1 hopen.1 hopen.2.1 hnt.2 hwf2 hP1 (hstep.2.2.trans hN)

theorem lettaResultEmit_log (s : LettaSt) (ie : Bool) (re : Str) :
    (lettaResultEmit s ie re).toolLog = s.toolLog ∧
    (lettaResultEmit s ie re).activeTools = s.activeTools := by
  obtain ⟨sc, ts, ti, to2, at2, sm, k, ⟨evs, cs⟩, log⟩ := s
  cases cs <;> cases ts <;> cases sc <;> by_cases hr : re.isEmpty <;>
    simp [lettaResultEmit, emitL, enq, cclose, hr]

theorem lettaLine_tools_sub (s : LettaSt) (l : Option LEvent) (x : Str)
    (h : x ∈ s.activeTools) : x ∈ (lettaLine s l).activeTools := by
  cases l with
  | none => exact h
  | some ev =>
    cases ev with
    | init a m2 => exact h
    | msgOther => exact h
    | msgUsage p? c? => exact h
    | msgAssistant content =>
      obtain ⟨sc, ts, ti, to2, at2, sm, k, ⟨evs, cs⟩, log⟩ := s
      have h2 : x ∈ at2 := h
      by_cases hce : content.isEmpty <;> cases cs <;> cases ts <;>
        simp [lettaLine, ensureTextStartL, emitL, enq, hce, h2]
    | msgToolCall id? name args? =>
      obtain ⟨sc, ts, ti, to2, at2, sm, k, ⟨evs, cs⟩, log⟩ := s
      have h2 : x ∈ at2 := h
      by_cases hmem : lettaCallId id? name ∈ at2 <;> cases cs <;> cases ts <;>
        simp [lettaLine, ensureTextStartL, emitL, enq, hmem, h2]
    | msgToolReturn ret? =>
      obtain ⟨sc, ts, ti, to2, at2, sm, k, ⟨evs, cs⟩, log⟩ := s
      have h2 : x ∈ at2 := h
      rcases ret? with _ | r <;> cases cs <;> cases ts <;>
        simp [lettaLine, ensureTextStartL, emitL, enq, h2]
    | result ie re aid u? =>
      rcases u? with _ | u <;>
        · show x ∈ (lettaResultEmit _ ie re).activeTools
          rw [(lettaResultEmit_log _ ie re).2]
          exact h

theorem lettaLine_assistant_effects (s : LettaSt) (content : Str) :
    (lettaLine s (some (.msgAssistant content))).toolLog = s.toolLog ∧
    (lettaLine s (some (.msgAssistant content))).activeTools = s.activeTools := by
  obtain ⟨sc, ts, ti, to2, at2, sm, k, ⟨evs, cs⟩, log⟩ := s
  by_cases hce : content.isEmpty <;> cases cs <;> cases ts <;>
    simp [lettaLine, ensureTextStartL, emitL, enq, hce]

theorem lettaLine_return_effects (s : LettaSt) (ret? : Option Str) :
    ((lettaLine s (some (.msgToolReturn ret?))).toolLog = s.toolLog ∨
      (lettaLine s (some (.msgToolReturn ret?))).toolLog =
        s.toolLog ++ [ToolAct.narrateRet]) ∧
    (lettaLine s (some (.msgToolReturn ret?))).activeTools = s.activeTools := by
  obtain ⟨sc, ts, ti, to2, at2, sm, k, ⟨evs, cs⟩, log⟩ := s
  rcases ret? with _ | r <;> cases cs <;> cases ts <;>
    simp [lettaLine, ensureTextStartL, emitL, enq]

theorem lettaLine_toolCall_dup (s : LettaSt) (id? : Option Str) (name : Str)
    (args? : Option Str) (hmem : lettaCallId id? name ∈ s.activeTools) :
    (lettaLine s (some (.msgToolCall id? name args?))).toolLog = s.toolLog ∧
    (lettaLine s (some (.msgToolCall id? name args?))).activeTools =
      s.activeTools := by
  obtain ⟨sc, ts, ti, to2, at2, sm, k, ⟨evs, cs⟩, log⟩ := s
  have hmem2 : lettaCallId id? name ∈ at2 := hmem
  cases cs <;> cases ts <;>
    simp [lettaLine, ensureTextStartL, emitL, enq, hmem2]

theorem lettaLine_toolCall_new (s : LettaSt) (id? : Option Str) (name : Str)
    (args? : Option Str) (hmem : lettaCallId id? name ∉ s.activeTools) :
    ((lettaLine s (some (.msgToolCall id? name args?))).toolLog = s.toolLog ∧
      (lettaLine s (some (.msgToolCall id? name args?))).activeTools =
        s.activeTools) ∨
    (((lettaLine s (some (.msgToolCall id? name args?))).toolLog = s.toolLog ∨
        (lettaLine s (some (.msgToolCall id? name args?))).toolLog =
          s.toolLog ++ [ToolAct.announce (lettaCallId id? name)]) ∧
      (lettaLine s (some (.msgToolCall id? name args?))).activeTools =
        s.activeTools ++ [lettaCallId id? name]) := by
  obtain ⟨sc, ts, ti, to2, at2, sm, k, ⟨evs, cs⟩, log⟩ := s
  have hmem2 : lettaCallId id? name ∉ at2 := hmem
  cases cs <;> cases ts <;>
    simp [lettaLine, ensureTextStartL, emitL, enq, hmem2]

theorem lettaLine_result_effects (s : LettaSt) (ie : Bool) (re aid : Str)
    (u? : Option LUsagePair) :
    (lettaLine s (some (.result ie re aid u?))).toolLog = s.toolLog ∧
    (lettaLine s (some (.result ie re aid u?))).activeTools =
      s.activeTools := by
  rcases u? with _ | u <;>
    · constructor
      · exact (lettaResultEmit_log _ ie re).1
      · exact (lettaResultEmit_log _ ie re).2

/-- Invariant for the announce-at-most-once property of the Letta adapter:
once announced, the id is tracked, and it is never removed. -/
def lettaAnnInv (id : Str) (s : LettaSt) : Prop :=
  announceCount id s.toolLog ≤ 1 ∧
  (announceCount id s.toolLog = 1 → id ∈ s.activeTools)

theorem lettaLine_ann (id : Str) (s : LettaSt) (l : Option LEvent)
    (h : lettaAnnInv id s) : lettaAnnInv id (lettaLine s l) := by
  obtain ⟨hle, hmem⟩ := h
  cases l with
  | none => exact ⟨hle, hmem⟩
  | some ev =>
    cases ev with
    | init a m2 => exact ⟨hle, hmem⟩
    | msgOther => exact ⟨hle, hmem⟩
    | msgUsage p? c? => exact ⟨hle, hmem⟩
    | msgAssistant content =>
      have he := lettaLine_assistant_effects s content
      exact ⟨he.1 ▸ hle, fun h1 => he.2 ▸ hmem (he.1 ▸ h1)⟩
    | msgToolReturn ret? =>
      have he := lettaLine_return_effects s ret?
      have hcnt : announceCount id
          (lettaLine s (some (.msgToolReturn ret?))).toolLog =
          announceCount id s.toolLog := by
        rcases he.1 with h1 | h1 <;> rw [h1]
        rw [announceCount_append]
        simp [isAnnounce]
      exact ⟨hcnt ▸ hle, fun h1 => he.2 ▸ hmem (hcnt ▸ h1)⟩
    | result ie re aid u? =>
      have he := lettaLine_result_effects s ie re aid u?
      exact ⟨he.1 ▸ hle, fun h1 => he.2 ▸ hmem (he.1 ▸ h1)⟩
    | msgToolCall id? name args? =>
      by_cases hmm : lettaCallId id? name ∈ s.activeTools
      · have he := lettaLine_toolCall_dup s id? name args? hmm
        exact ⟨he.1 ▸ hle, fun h1 => he.2 ▸ hmem (he.1 ▸ h1)⟩
      · rcases lettaLine_toolCall_new s id? name args? hmm with hun | he
        · exact ⟨hun.1 ▸ hle, fun h1 => hun.2 ▸ hmem (hun.1 ▸ h1)⟩
        · by_cases hcid : lettaCallId id? name = id
          · have hc0 : announceCount id s.toolLog = 0 := by
              rcases Nat.lt_or_ge (announceCount id s.toolLog) 1 with hlt | hge
              · omega
              · exact absurd (hcid ▸ hmem (by omega)) hmm
            have hcnt : announceCount id
                (lettaLine s (some (.msgToolCall id? name args?))).toolLog
                  ≤ 1 := by
              rcases he.1 with h1 | h1 <;> rw [h1]
              · rw [hc0]; omega
              · rw [announceCount_append, hc0]
                simp [isAnnounce, hcid]
            refine ⟨hcnt, fun _ => ?_⟩
            rw [he.2, ← hcid]
            simp
          · have hcnt : announceCount id
                (lettaLine s (some (.msgToolCall id? name args?))).toolLog =
                announceCount id s.toolLog := by
              rcases he.1 with h1 | h1 <;> rw [h1]
              rw [announceCount_append]
              simp [isAnnounce, hcid]
            refine ⟨hcnt ▸ hle, fun h1 => ?_⟩
            rw [he.2]
            exact List.mem_append_left _ (hmem (hcnt ▸ h1))

theorem lettaLines_ann (id : Str) (lines : List (Option LEvent)) :
    ∀ s : LettaSt, lettaAnnInv id s → lettaAnnInv id (lettaLines s lines) := by
  induction lines with
  | nil => intro s h; exact h
  | cons l ls ih => intro s h; exact ih _ (lettaLine_ann id s l h)

theorem lettaLines_tools_sub (lines : List (Option LEvent)) :
    ∀ (s : LettaSt) (x : Str), x ∈ s.activeTools →
      x ∈ (lettaLines s lines).activeTools := by
  induction lines with
  | nil => intro s x h; exact h
  | cons l ls ih => intro s x h; exact ih _ x (lettaLine_tools_sub s l x h)

/-- C9 (amended): tool-narration behaviour differs from the claim.  In the
OpenCode adapter, over any mid-stream line sequence (no stream-terminating
event) in which the lifecycle of a call id is well formed — at most one
completed/error event and nothing for that id after it — the
pending/running announcement for the id is delivered at most once, the
completion/error narration is delivered exactly as many times as terminal
events arrive for the id (so exactly once when one arrives; a duplicated
terminal event narrates twice, see the counterexample), and after the
terminal event the tracking record for the id is removed.  In the Letta
adapter the pending announcement for a call id is delivered at most once
over the whole call, but the tracking record is never removed: the map of
active tools only ever grows, also across completed tool returns. -/
theorem c9_tool_narration (id : Str) (lines : List (Option OCEvent))
    (llines : List (Option LEvent)) (key? : Option Str) (smap : SMap)
    (hnt : lines.all ocNonTerminal = true) (hwf : toolWf id lines = true) :
    (announceCount id (ocLines (ocInit key? smap) lines).toolLog ≤ 1 ∧
      narrCount id (ocLines (ocInit key? smap) lines).toolLog =
        termCount id lines ∧
      (1 ≤ termCount id lines →
        id ∉ (ocLines (ocInit key? smap) lines).activeTools)) ∧
    announceCount id (lettaLines (lettaInit key? smap) llines).toolLog ≤ 1 ∧
    (∀ (s : LettaSt) (x : Str), x ∈ s.activeTools →
      x ∈ (lettaLines s llines).activeTools) := by
  refine ⟨?_, ?_, ?_⟩
  · exact ocTool_phase1 id lines (ocInit key? smap) rfl rfl hnt hwf
      (Or.inl ⟨rfl, by simp [ocInit]⟩) rfl
  · have hz : announceCount id (lettaInit key? smap).toolLog = 0 := rfl
    have hinv : lettaAnnInv id (lettaInit key? smap) := by
      constructor
      · rw [hz]; omega
      · intro h1; rw [hz] at h1; omega
    exact (lettaLines_ann id llines (lettaInit key? smap) hinv).1
  · intro s x hx
    exact lettaLines_tools_sub llines s x hx

theorem c9_witness :
    (([some (OCEvent.toolUse (str "s1")
          ⟨str "c1", str "bash", .pending, none, none, none, none⟩),
        some (OCEvent.toolUse (str "s1")
          ⟨str "c1", str "bash", .completed, none, none, none, none⟩)] :
        List (Option OCEvent)).all ocNonTerminal = true ∧
      toolWf (str "c1")
        [some (OCEvent.toolUse (str "s1")
            ⟨str "c1", str "bash", .pending, none, none, none, none⟩),
          some (OCEvent.toolUse (str "s1")
            ⟨str "c1", str "bash", .completed, none, none, none, none⟩)] =
        true) ∧
    ((announceCount (str "c1") (ocLines (ocInit none [])
          [some (OCEvent.toolUse (str "s1")
              ⟨str "c1", str "bash", .pending, none, none, none, none⟩),
            some (OCEvent.toolUse (str "s1")
              ⟨str "c1", str "bash", .completed, none, none, none,
                none⟩)]).toolLog ≤ 1 ∧
      narrCount (str "c1") (ocLines (ocInit none [])
          [some (OCEvent.toolUse (str "s1")
              ⟨str "c1", str "bash", .pending, none, none, none, none⟩),
            some (OCEvent.toolUse (str "s1")
              ⟨str "c1", str "bash", .completed, none, none, none,
                none⟩)]).toolLog =
        termCount (str "c1")
          [some (OCEvent.toolUse (str "s1")
              ⟨str "c1", str "bash", .pending, none, none, none, none⟩),
            some (OCEvent.toolUse (str "s1")
              ⟨str "c1", str "bash", .completed, none, none, none, none⟩)] ∧
      (1 ≤ termCount (str "c1")
          [some (OCEvent.toolUse (str "s1")
              ⟨str "c1", str "bash", .pending, none, none, none, none⟩),
            some (OCEvent.toolUse (str "s1")
              ⟨str "c1", str "bash", .completed, none, none, none, none⟩)] →
        (str "c1") ∉ (ocLines (ocInit none [])
          [some (OCEvent.toolUse (str "s1")
              ⟨str "c1", str "bash", .pending, none, none, none, none⟩),
            some (OCEvent.toolUse (str "s1")
              ⟨str "c1", str "bash", .completed, none, none, none,
                none⟩)]).activeTools)) ∧
      announceCount (str "c1")
        (lettaLines (lettaInit none [])
          [some (LEvent.msgToolCall (some (str "c1")) (str "bash")
            none)]).toolLog ≤ 1 ∧
      (∀ (s : LettaSt) (x : Str), x ∈ s.activeTools →
        x ∈ (lettaLines s
          [some (LEvent.msgToolCall (some (str "c1")) (str "bash")
            none)]).activeTools)) :=
  ⟨⟨by decide, by decide⟩,
    c9_tool_narration (str "c1") _ _ none [] (by decide) (by decide)⟩

/-- C9 counterexample: two completed events for the same call id in the
OpenCode adapter each produce a completion narration (the handler does not
gate the completion narration on tracking), so the narration is delivered
twice; and in the Letta adapter the tracking record for an announced call
id is still present after its tool return, so it is not removed at a
terminal status. -/
theorem c9_counterexample :
    narrCount (str "c1")
        (ocLines (ocInit none [])
          [some (OCEvent.toolUse (str "s1")
              ⟨str "c1", str "bash", .completed, none, none, none, none⟩),
            some (OCEvent.toolUse (str "s1")
              ⟨str "c1", str "bash", .completed, none, none, none,
                none⟩)]).toolLog = 2 ∧
    (str "c1") ∈ (lettaLines (lettaInit none [])
        [some (LEvent.msgToolCall (some (str "c1")) (str "bash") none),
          some (LEvent.msgToolReturn (some (str "ok")))]).activeTools := by
  decide

/-!
## Gemini CLI doStream state machine and C10
-/

inductive GemEvent
  | init (sessionId : Str) (model : Str)
  | message (isAssistant : Bool) (content : Str) (delta : Bool)
  | toolUse (toolName : Str) (toolId : Str)
  | toolResult (ok : Bool)
  | result (ok : Bool) (inputTokens outputTokens : Nat)
deriving DecidableEq

structure GemSt where
  streamClosed : Bool
  textStartSent : Bool
  lastContent : Str
  sessions : List Str
  key? : Option Str
  ctrl : Ctrl
deriving DecidableEq

def emitG (s : GemSt) (e : SEv) : Option GemSt :=
  match enq s.ctrl e with
  | some c => some { s with ctrl := c }
  | none => none

def ensureTextStartG (s : GemSt) : Option GemSt :=
  if s.textStartSent then some s
  else
    match emitG s .textStart with
    | some s1 => some { s1 with textStartSent := true }
    | none => none

def gemThinking : Str := str "*Thinking...*\n\n"

/-- The Gemini CLI stream construction: the Thinking indicator is emitted
unconditionally before any process output arrives. -/
def gemInit (key? : Option Str) : GemSt :=
  let s0 : GemSt := ⟨false, false, [], [], key?, ⟨[], .opn⟩⟩
  match emitG s0 .textStart with
  | none => s0
  | some s1 =>
    let s2 := { s1 with textStartSent := true }
    match emitG s2 (.textDelta gemThinking) with
    | none => s2
    | some s3 => s3

/-- markSessionInitialized: record that the current session key has
completed a turn (the Gemini adapter only tracks a resume-latest flag). -/
def gemMarkInitialized (s : GemSt) : GemSt :=
  match s.key? with
  | some k =>
    if k.isEmpty then s
    else if k ∈ s.sessions then s else { s with sessions := s.sessions ++ [k] }
  | none => s

/-- The success arm of the Gemini result branch: text-end when a text
block is open, finish with the reported stats, then close. -/
def gemResultEmit (s : GemSt) (i o : Nat) : GemSt :=
  match (if s.textStartSent then emitG s .textEnd else some s) with
  | none => s
  | some s2 =>
    match emitG s2 (.finish (str "stop") i o) with
    | none => s2
    | some s3 =>
      if s3.streamClosed then s3
      else
        let s4 := { s3 with streamClosed := true }
        match cclose s4.ctrl with
        | none => s4
        | some c => { s4 with ctrl := c }

/-- One line of the Gemini doStream data handler. -/
def gemLine (s : GemSt) (line? : Option GemEvent) : GemSt :=
  match line? with
  | none => s
  | some ev =>
    match ev with
    | .init _ _ => s
    | .message isAssistant content delta =>
      if isAssistant then
        match ensureTextStartG s with
        | none => s
        | some s1 =>
          if delta then
            let p := gemFeedText s1.lastContent content
            let s2 := { s1 with lastContent := p.2 }
            match p.1 with
            | [] => s2
            | d :: _ =>
              match emitG s2 (.textDelta d) with
              | none => s2
              | some s3 => s3
          else
            match emitG s1 (.textDelta content) with
            | none => s1
            | some s2 => s2
      else s
    | .toolUse toolName _ =>
      match ensureTextStartG s with
      | none => s
      | some s1 =>
        match emitG s1 (.textDelta
            (str "\n\n---\n**Using tool: " ++ toolName ++ str "**\n")) with
        | none => s1
        | some s2 => s2
    | .toolResult ok =>
      match emitG s (.textDelta
          (str "**Tool " ++ (if ok then str "completed" else str "failed") ++
            str "**\n---\n\n")) with
      | none => s
      | some s1 => s1
    | .result ok i o =>
      let s1 := if ok then gemMarkInitialized s else s
      if ok = false then
        { s1 with ctrl := cerror s1.ctrl, streamClosed := true }
      else gemResultEmit s1 i o

def gemLines (s : GemSt) (lines : List (Option GemEvent)) : GemSt :=
  lines.foldl gemLine s

def gemChunks (s : GemSt) (chunks : List (List (Option GemEvent))) : GemSt :=
  chunks.foldl gemLines s

/-- The last-chance residual result processing of the Gemini close
handler: session marking on success, text-end when a text block is open,
and a finish event whose reason reflects the result status. -/
def gemCloseResidual (s : GemSt) (ok : Bool) (i o : Nat) : GemSt :=
  let sa := if ok then gemMarkInitialized s else s
  match (if sa.textStartSent then emitG sa .textEnd else some sa) with
  | none => sa
  | some sb =>
    match emitG sb (.finish (if ok then str "stop" else str "error") i o) with
    | none => sb
    | some sc => sc

/-- The Gemini doStream close handler: a non-zero non-null exit code errors
the stream; otherwise the residual buffer may contribute a last-chance
result event (text-end plus finish), and the stream is closed. -/
def gemFinalClose (s1 : GemSt) : GemSt :=
  if s1.streamClosed then s1
  else
    let s2 := { s1 with streamClosed := true }
    match cclose s2.ctrl with
    | none => s2
    | some c => { s2 with ctrl := c }

def gemClose (s : GemSt) (residual? : Option GemEvent) (code : Option Int) :
    GemSt :=
  if ((match code with
      | some c => decide (c ≠ 0)
      | none => false) && !s.streamClosed) then
    { s with streamClosed := true, ctrl := cerror s.ctrl }
  else
    gemFinalClose
      (match residual? with
      | some (.result ok i o) =>
        if s.streamClosed then s else gemCloseResidual s ok i o
      | _ => s)

/-- One whole Gemini streaming call. -/
def gemRunStream (key? : Option Str)
    (chunks : List (List (Option GemEvent))) (residual? : Option GemEvent)
    (code : Option Int) : GemSt :=
  gemClose (gemChunks (gemInit key?) chunks) residual? code

theorem isPrefixOf_self_any {α : Type} [DecidableEq α] :
    ∀ l : List α, l.isPrefixOf l = true
  | [] => by simp [List.isPrefixOf]
  | a :: l => by
    rw [List.isPrefixOf, Bool.and_eq_true, beq_iff_eq]
    exact ⟨rfl, isPrefixOf_self_any l⟩

theorem isPrefixOf_append_self {α : Type} [DecidableEq α] :
    ∀ l t : List α, l.isPrefixOf (l ++ t) = true
  | [], _ => by simp [List.isPrefixOf]
  | a :: l, t => by
    rw [List.cons_append, List.isPrefixOf, Bool.and_eq_true, beq_iff_eq]
    exact ⟨rfl, isPrefixOf_append_self l t⟩

theorem isPrefixOf_trans {α : Type} [DecidableEq α] :
    ∀ a b c : List α, a.isPrefixOf b = true → b.isPrefixOf c = true →
      a.isPrefixOf c = true
  | [], _, _, _, _ => by simp [List.isPrefixOf]
  | _ :: _, [], _, h, _ => by simp [List.isPrefixOf] at h
  | _ :: _, _ :: _, [], _, h2 => by simp [List.isPrefixOf] at h2
  | x :: as, y :: bs, z :: cs, h1, h2 => by
    rw [List.isPrefixOf, Bool.and_eq_true, beq_iff_eq] at h1 h2 ⊢
    exact ⟨h1.1.trans h2.1, isPrefixOf_trans as bs cs h1.2 h2.2⟩

theorem take_of_isPrefixOf {α : Type} [DecidableEq α] :
    ∀ a b : List α, a.isPrefixOf b = true → b.take a.length = a
  | [], _, _ => by simp
  | _ :: _, [], h => by simp [List.isPrefixOf] at h
  | a :: as, b :: bs, h => by
    rw [List.isPrefixOf, Bool.and_eq_true, beq_iff_eq] at h
    rw [List.length_cons, List.take_succ_cons, take_of_isPrefixOf as bs h.2,
      h.1]

theorem lettaResultEmit_extends (s : LettaSt) (ie : Bool) (re : Str) :
    s.ctrl.events.isPrefixOf (lettaResultEmit s ie re).ctrl.events = true := by
  obtain ⟨sc, ts, ti, to2, at2, sm, k, ⟨evs, cs⟩, log⟩ := s
  cases cs <;> cases ts <;> cases sc <;> by_cases hr : re.isEmpty <;>
    simp [lettaResultEmit, emitL, enq, cclose, hr, isPrefixOf_self_any,
      isPrefixOf_append_self]

theorem lettaLine_extends (s : LettaSt) (l : Option LEvent) :
    s.ctrl.events.isPrefixOf (lettaLine s l).ctrl.events = true := by
  cases l with
  | none => exact isPrefixOf_self_any _
  | some ev =>
    cases ev with
    | init a m2 => exact isPrefixOf_self_any _
    | msgOther => exact isPrefixOf_self_any _
    | msgUsage p? c? => exact isPrefixOf_self_any _
    | msgAssistant content =>
      obtain ⟨sc, ts, ti, to2, at2, sm, k, ⟨evs, cs⟩, log⟩ := s
      by_cases hce : content.isEmpty <;> cases cs <;> cases ts <;>
        simp [lettaLine, ensureTextStartL, emitL, enq, hce, isPrefixOf_self_any,
          isPrefixOf_append_self]
    | msgToolCall id? name args? =>
      obtain ⟨sc, ts, ti, to2, at2, sm, k, ⟨evs, cs⟩, log⟩ := s
      by_cases hmem : lettaCallId id? name ∈ at2 <;> cases cs <;> cases ts <;>
        simp [lettaLine, ensureTextStartL, emitL, enq, hmem, isPrefixOf_self_any,
          isPrefixOf_append_self]
    | msgToolReturn ret? =>
      obtain ⟨sc, ts, ti, to2, at2, sm, k, ⟨evs, cs⟩, log⟩ := s
      rcases ret? with _ | r <;> cases cs <;> cases ts <;>
        simp [lettaLine, ensureTextStartL, emitL, enq, isPrefixOf_self_any,
          isPrefixOf_append_self]
    | result ie re aid u? =>
      have key : ∀ s2 : LettaSt, s2.ctrl = s.ctrl →
          s.ctrl.events.isPrefixOf (lettaResultEmit s2 ie re).ctrl.events =
            true := by
        intro s2 hc
        have h2 := lettaResultEmit_extends s2 ie re
        rw [hc] at h2
        exact h2
      rcases u? with _ | u <;> exact key _ rfl

theorem lettaLines_extends (lines : List (Option LEvent)) :
    ∀ s : LettaSt,
      s.ctrl.events.isPrefixOf (lettaLines s lines).ctrl.events = true := by
  induction lines with
  | nil => intro s; exact isPrefixOf_self_any _
  | cons l ls ih =>
    intro s
    exact isPrefixOf_trans _ _ _ (lettaLine_extends s l) (ih (lettaLine s l))

theorem lettaChunks_extends (chunks : List (List (Option LEvent))) :
    ∀ s : LettaSt,
      s.ctrl.events.isPrefixOf (lettaChunks s chunks).ctrl.events = true := by
  induction chunks with
  | nil => intro s; exact isPrefixOf_self_any _
  | cons c cs ih =>
    intro s
    exact isPrefixOf_trans _ _ _ (lettaLines_extends c s) (ih (lettaLines s c))

theorem lettaClose_extends (s : LettaSt) (residual? : Option LEvent)
    (code : Option Int) :
    s.ctrl.events.isPrefixOf (lettaClose s residual? code).ctrl.events =
      true := by
  obtain ⟨sc, ts, ti, to2, at2, sm, k, ⟨evs, cs⟩, log⟩ := s
  have hbase : ∀ cs2 ts2 sc2 ti2 to22,
      (({ streamClosed := sc2, textStartSent := ts2, totalInputTokens := ti2,
          totalOutputTokens := to22, activeTools := at2, smap := sm,
          key? := k, ctrl := ⟨evs, cs2⟩, toolLog := log } : LettaSt)).ctrl.events
        = evs := fun _ _ _ _ _ => rfl
  rcases residual? with _ | ev
  · cases cs <;> cases ts <;> cases sc <;>
      simp [lettaClose, emitL, enq, cclose, isPrefixOf_self_any,
        isPrefixOf_append_self]
  · rcases ev with _ | _ | _ | _ | _ | _ | ⟨ie, re, aid, u?⟩
    case result =>
      rcases u? with _ | u <;> cases cs <;> cases ts <;> cases sc <;>
        simp [lettaClose, emitL, enq, cclose, isPrefixOf_self_any,
          isPrefixOf_append_self]
    all_goals
      cases cs <;> cases ts <;> cases sc <;>
        simp [lettaClose, emitL, enq, cclose, isPrefixOf_self_any,
          isPrefixOf_append_self]

theorem cerror_events (c : Ctrl) : (cerror c).events = c.events := by
  cases hc : c.state <;> simp [cerror, hc]

theorem gemMarkInitialized_fields (s : GemSt) :
    (gemMarkInitialized s).ctrl = s.ctrl ∧
    (gemMarkInitialized s).textStartSent = s.textStartSent ∧
    (gemMarkInitialized s).streamClosed = s.streamClosed := by
  rcases s with ⟨sc, ts, lc, sess, k, c⟩
  rcases k with _ | k2
  · exact ⟨rfl, rfl, rfl⟩
  · by_cases h1 : k2.isEmpty
    · simp [gemMarkInitialized, h1]
    · by_cases h2 : k2 ∈ sess <;> simp [gemMarkInitialized, h1, h2]

theorem gemResultEmit_extends (s : GemSt) (i o : Nat) :
    s.ctrl.events.isPrefixOf (gemResultEmit s i o).ctrl.events = true := by
  obtain ⟨sc, ts, lc, sess, k, ⟨evs, cs⟩⟩ := s
  cases cs <;> cases ts <;> cases sc <;>
    simp [gemResultEmit, emitG, enq, cclose, isPrefixOf_self_any,
      isPrefixOf_append_self]

theorem gemCloseResidual_extends (s : GemSt) (ok : Bool) (i o : Nat) :
    s.ctrl.events.isPrefixOf (gemCloseResidual s ok i o).ctrl.events =
      true := by
  have hm := gemMarkInitialized_fields s
  cases ok
  · show s.ctrl.events.isPrefixOf
      ((match (if s.textStartSent then emitG s .textEnd else some s) with
        | none => s
        | some sb =>
          match emitG sb (.finish (if false then str "stop" else str "error")
              i o) with
          | none => sb
          | some sc => sc) : GemSt).ctrl.events = true
    obtain ⟨sc, ts, lc, sess, k, ⟨evs, cs⟩⟩ := s
    cases cs <;> cases ts <;>
      simp [emitG, enq, isPrefixOf_self_any, isPrefixOf_append_self]
  · have key : ∀ s2 : GemSt, s2.ctrl = s.ctrl →
        s.ctrl.events.isPrefixOf
          ((match (if s2.textStartSent then emitG s2 .textEnd else some s2) with
            | none => s2
            | some sb =>
              match emitG sb (.finish (if true then str "stop" else str "error")
                  i o) with
              | none => sb
              | some sc => sc) : GemSt).ctrl.events = true := by
      intro s2 hc
      obtain ⟨sc, ts, lc, sess, k, ⟨evs, cs⟩⟩ := s2
      rw [← hc]
      cases cs <;> cases ts <;>
        simp [emitG, enq, isPrefixOf_self_any, isPrefixOf_append_self]
    exact key _ hm.1

theorem gemLine_extends (s : GemSt) (l : Option GemEvent) :
    s.ctrl.events.isPrefixOf (gemLine s l).ctrl.events = true := by
  cases l with
  | none => exact isPrefixOf_self_any _
  | some ev =>
    cases ev with
    | init a m2 => exact isPrefixOf_self_any _
    | message isAssistant content delta =>
      obtain ⟨sc, ts, lc, sess, k, ⟨evs, cs⟩⟩ := s
      rcases hp : gemFeedText lc content with ⟨ds, l2⟩
      cases isAssistant <;> cases delta <;> cases cs <;> cases ts <;>
        cases ds <;>
        simp [gemLine, ensureTextStartG, emitG, enq, hp, isPrefixOf_self_any,
          isPrefixOf_append_self]
    | toolUse toolName toolId =>
      obtain ⟨sc, ts, lc, sess, k, ⟨evs, cs⟩⟩ := s
      cases cs <;> cases ts <;>
        simp [gemLine, ensureTextStartG, emitG, enq, isPrefixOf_self_any,
          isPrefixOf_append_self]
    | toolResult ok =>
      obtain ⟨sc, ts, lc, sess, k, ⟨evs, cs⟩⟩ := s
      cases cs <;>
        simp [gemLine, emitG, enq, isPrefixOf_self_any,
          isPrefixOf_append_self]
    | result ok i o =>
      cases ok
      · show s.ctrl.events.isPrefixOf (cerror s.ctrl).events = true
        rw [cerror_events]
        exact isPrefixOf_self_any _
      · have hm := gemMarkInitialized_fields s
        have h2 := gemResultEmit_extends (gemMarkInitialized s) i o
        rw [hm.1] at h2
        exact h2

theorem gemLines_extends (lines : List (Option GemEvent)) :
    ∀ s : GemSt,
      s.ctrl.events.isPrefixOf (gemLines s lines).ctrl.events = true := by
  induction lines with
  | nil => intro s; exact isPrefixOf_self_any _
  | cons l ls ih =>
    intro s
    exact isPrefixOf_trans _ _ _ (gemLine_extends s l) (ih (gemLine s l))

theorem gemChunks_extends (chunks : List (List (Option GemEvent))) :
    ∀ s : GemSt,
      s.ctrl.events.isPrefixOf (gemChunks s chunks).ctrl.events = true := by
  induction chunks with
  | nil => intro s; exact isPrefixOf_self_any _
  | cons c cs ih =>
    intro s
    exact isPrefixOf_trans _ _ _ (gemLines_extends c s) (ih (gemLines s c))

theorem gemFinalClose_events (s1 : GemSt) :
    (gemFinalClose s1).ctrl.events = s1.ctrl.events := by
  rcases s1 with ⟨sc1, ts1, lc1, sess1, k1, ⟨evs1, cs1⟩⟩
  cases sc1 <;> cases cs1 <;> simp [gemFinalClose, cclose]

theorem gemClose_extends (s : GemSt) (residual? : Option GemEvent)
    (code : Option Int) :
    s.ctrl.events.isPrefixOf (gemClose s residual? code).ctrl.events =
      true := by
  unfold gemClose
  split
  · rw [cerror_events]
    exact isPrefixOf_self_any _
  · rcases residual? with _ | ev
    · rw [gemFinalClose_events]
      exact isPrefixOf_self_any _
    · rcases ev with _ | _ | _ | _ | ⟨ok, i, o⟩
      case result =>
        rw [gemFinalClose_events]
        by_cases hsc : s.streamClosed
        · simp only [hsc, if_true]
          exact isPrefixOf_self_any _
        · simp only [hsc, if_false]
          exact gemCloseResidual_extends s ok i o
      all_goals
        rw [gemFinalClose_events]
        exact isPrefixOf_self_any _

/-- C10: in the Letta and the Gemini streaming adapters a text-start event
and a Thinking text-delta are emitted unconditionally at stream
construction, before any output of the external process is handled: for
every run the first two delivered events are text-start followed by the
Thinking delta, so every streaming call through these two adapters
delivers at least one text-delta even when the process produces no output
at all, and text-start is not gated on the first textual content from the
vendor. -/
theorem c10_thinking_unconditional (key? : Option Str) (smap : SMap)
    (lchunks : List (List (Option LEvent))) (lres : Option LEvent)
    (gchunks : List (List (Option GemEvent))) (gres : Option GemEvent)
    (lcode gcode : Option Int) :
    (lettaRunStream key? smap lchunks lres lcode).ctrl.events.take 2 =
      [SEv.textStart, SEv.textDelta lettaThinking] ∧
    SEv.textDelta lettaThinking ∈
      (lettaRunStream key? smap lchunks lres lcode).ctrl.events ∧
    (gemRunStream key? gchunks gres gcode).ctrl.events.take 2 =
      [SEv.textStart, SEv.textDelta gemThinking] ∧
    SEv.textDelta gemThinking ∈
      (gemRunStream key? gchunks gres gcode).ctrl.events := by
  have hlpre : (lettaInit key? smap).ctrl.events.isPrefixOf
      (lettaRunStream key? smap lchunks lres lcode).ctrl.events = true :=
    isPrefixOf_trans _ _ _ (lettaChunks_extends lchunks (lettaInit key? smap))
      (lettaClose_extends _ lres lcode)
  have hle : (lettaInit key? smap).ctrl.events =
      [SEv.textStart, SEv.textDelta lettaThinking] := rfl
  rw [hle] at hlpre
  have hltake : (lettaRunStream key? smap lchunks lres lcode).ctrl.events.take
      2 = [SEv.textStart, SEv.textDelta lettaThinking] := by
    simpa using take_of_isPrefixOf _ _ hlpre
  have hgpre : (gemInit key?).ctrl.events.isPrefixOf
      (gemRunStream key? gchunks gres gcode).ctrl.events = true :=
    isPrefixOf_trans _ _ _ (gemChunks_extends gchunks (gemInit key?))
      (gemClose_extends _ gres gcode)
  have hge : (gemInit key?).ctrl.events =
      [SEv.textStart, SEv.textDelta gemThinking] := rfl
  rw [hge] at hgpre
  have hgtake : (gemRunStream key? gchunks gres gcode).ctrl.events.take 2 =
      [SEv.textStart, SEv.textDelta gemThinking] := by
    simpa using take_of_isPrefixOf _ _ hgpre
  refine ⟨hltake, ?_, hgtake, ?_⟩
  · have hmem : SEv.textDelta lettaThinking ∈
        (lettaRunStream key? smap lchunks lres lcode).ctrl.events.take 2 := by
      rw [hltake]
      simp
    exact List.take_subset _ _ hmem
  · have hmem : SEv.textDelta gemThinking ∈
        (gemRunStream key? gchunks gres gcode).ctrl.events.take 2 := by
      rw [hgtake]
      simp
    exact List.take_subset _ _ hmem
